import Mathlib

/-!
Verification of the `nest-http` key-case transformer (`src/http.helper.ts`)
and request pipeline (`src/http.service.ts`).

JavaScript runtime values are modelled by the inductive type `JVal`
(numbers as `Int`; the claims never involve fractional or `NaN` values).
Objects are ordered association lists, mirroring JS property order.
-/

inductive JVal : Type where
  | undef : JVal
  | null : JVal
  | bool : Bool → JVal
  | num : Int → JVal
  | str : String → JVal
  | arr : List JVal → JVal
  | obj : List (String × JVal) → JVal
  deriving Repr

namespace JVal

/-- JS truthiness: `undefined`, `null`, `false`, `0` and `""` are falsy;
objects and arrays (even empty ones) are truthy. -/
def truthy : JVal → Bool
  | .undef => false
  | .null => false
  | .bool b => b
  | .num n => n != 0
  | .str s => s ≠ ""
  | .arr _ => true
  | .obj _ => true

/-- `typeof v === 'object'` — true for objects, arrays and `null`. -/
def isObjType : JVal → Bool
  | .obj _ => true
  | .arr _ => true
  | .null => true
  | _ => false

/-- JS property read `v[k]`: crashes (TypeError) on `null`/`undefined`,
yields `undefined` for a missing key and on non-object primitives. -/
def jsGet : JVal → String → Except Unit JVal
  | .undef, _ => .error ()
  | .null, _ => .error ()
  | .obj fs, k => .ok ((fs.find? (fun p => p.1 == k)).elim JVal.undef (·.2))
  | _, _ => .ok (.undef)

/-- Property read on a receiver already known to be non-nullish
(missing key / primitive receiver gives `undefined`). -/
def getF : JVal → String → JVal
  | .obj fs, k => (fs.find? (fun p => p.1 == k)).elim JVal.undef (·.2)
  | _, _ => (.undef)

/-- JS `x || y`. -/
def jsOr (x y : JVal) : JVal := if x.truthy then x else y

/-- JS `x ?? y` (nullish coalescing): used only to state the spec's `??`
phrasing when comparing it with the code's `||`. -/
def jsNullish (x y : JVal) : JVal :=
  match x with
  | .undef => y
  | .null => y
  | v => v

end JVal

/-- Keys of an object field list. -/
def keysOf (fs : List (String × JVal)) : List String := fs.map (·.1)

/-- Whether a field list has an own property `k`. -/
def hasKey (fs : List (String × JVal)) (k : String) : Bool :=
  fs.any (fun p => p.1 == k)

/-- Value of property `k` (`undefined` when absent). -/
def getK (fs : List (String × JVal)) (k : String) : JVal :=
  (fs.find? (fun p => p.1 == k)).elim JVal.undef (·.2)

/-- JS property write semantics on an ordered field list: an existing key is
updated in place (property order preserved), a new key is appended. -/
def objSet (fs : List (String × JVal)) (k : String) (v : JVal) :
    List (String × JVal) :=
  if hasKey fs k then
    fs.map (fun p => if p.1 == k then (k, v) else p)
  else
    fs ++ [(k, v)]

/-- JS `delete o[k]`. -/
def objDel (fs : List (String × JVal)) (k : String) : List (String × JVal) :=
  fs.filter (fun p => p.1 != k)

/-! ## Lodash word splitting and case conversion

`http.helper.ts` renames keys with lodash's `_.camelCase` / `_.snakeCase`.
Both split the string into words and reassemble them.  The functions below
model lodash's splitting for ASCII identifier-style strings (letters, digits
and separators such as `_`): a run of lowercase letters is a word, a run of
digits is a word, a run of uppercase letters is a word except that when it is
followed by a lowercase letter its last letter instead starts the next word
(`"BAZQux"` → `"BAZ"`, `"Qux"`), and any other character is a separator.
(Lodash additionally treats digit-ordinal suffixes such as `"1st"` as single
words; no claim in this development involves such keys.)

The recursion is fuelled so that it is structural (and therefore computes by
`rfl`); `wordsF_irr` below shows the fuel is irrelevant once it is at least
the length of the input, and `wordsL` always supplies exactly that much. -/

def isLo (c : Char) : Bool := 'a' ≤ c && c ≤ 'z'
def isUp (c : Char) : Bool := 'A' ≤ c && c ≤ 'Z'
def isDig (c : Char) : Bool := '0' ≤ c && c ≤ '9'

/-- ASCII lowercasing of one character. -/
def loC (c : Char) : Char := if isUp c then Char.ofNat (c.toNat + 32) else c

/-- ASCII uppercasing of one character. -/
def upC (c : Char) : Char := if isLo c then Char.ofNat (c.toNat - 32) else c

/-- Fuelled lodash word splitting (see section comment above). -/
def wordsF : Nat → List Char → List (List Char)
  | _, [] => []
  | 0, _ :: _ => []
  | f + 1, c :: cs =>
    if isLo c then
      (c :: cs.takeWhile isLo) :: wordsF f (cs.dropWhile isLo)
    else if isDig c then
      (c :: cs.takeWhile isDig) :: wordsF f (cs.dropWhile isDig)
    else if isUp c then
      match cs.dropWhile isUp with
      | [] => [c :: cs.takeWhile isUp]
      | d :: ds =>
        if isLo d then
          match cs.takeWhile isUp with
          | [] => (c :: d :: ds.takeWhile isLo) :: wordsF f (ds.dropWhile isLo)
          | u :: us =>
            (c :: u :: us).dropLast ::
              ((u :: us).getLast (by simp) :: d :: ds.takeWhile isLo) ::
                wordsF f (ds.dropWhile isLo)
        else
          (c :: cs.takeWhile isUp) :: wordsF f (d :: ds)
    else
      wordsF f cs

/-- Lodash word splitting of a character list. -/
def wordsL (l : List Char) : List (List Char) := wordsF l.length l

theorem length_dropWhile_le (p : α → Bool) :
    ∀ l : List α, (l.dropWhile p).length ≤ l.length
  | [] => Nat.le_refl _
  | a :: l => by
    simp only [List.dropWhile]
    cases p a
    · simp
    · simp only []
      exact Nat.le_succ_of_le (length_dropWhile_le p l)

/-- The fuel of `wordsF` is irrelevant once it covers the input length. -/
theorem wordsF_irr : ∀ (f g : Nat) (l : List Char), l.length ≤ f →
    l.length ≤ g → wordsF f l = wordsF g l := by
  intro f
  induction f with
  | zero =>
    intro g l hf _
    cases l with
    | nil => cases g <;> rfl
    | cons c cs => simp at hf
  | succ f ih =>
    intro g l hf hg
    cases l with
    | nil => cases g <;> rfl
    | cons c cs =>
      cases g with
      | zero => simp at hg
      | succ g =>
        simp only [List.length_cons, Nat.succ_le_succ_iff] at hf hg
        have hlo : (cs.dropWhile isLo).length ≤ cs.length :=
          length_dropWhile_le _ _
        have hdig : (cs.dropWhile isDig).length ≤ cs.length :=
          length_dropWhile_le _ _
        have hup : (cs.dropWhile isUp).length ≤ cs.length :=
          length_dropWhile_le _ _
        cases hdw : cs.dropWhile isUp with
        | nil =>
          simp only [wordsF, hdw]
          simp only [ih g (cs.dropWhile isLo) (Nat.le_trans hlo hf)
              (Nat.le_trans hlo hg),
            ih g (cs.dropWhile isDig) (Nat.le_trans hdig hf)
              (Nat.le_trans hdig hg),
            ih g cs hf hg]
        | cons d ds =>
          rw [hdw] at hup
          simp only [List.length_cons] at hup
          have hds : (ds.dropWhile isLo).length ≤ ds.length :=
            length_dropWhile_le _ _
          have h1 : (ds.dropWhile isLo).length ≤ f :=
            Nat.le_trans hds (Nat.le_trans (Nat.le_of_succ_le hup) hf)
          have h2 : (ds.dropWhile isLo).length ≤ g :=
            Nat.le_trans hds (Nat.le_trans (Nat.le_of_succ_le hup) hg)
          simp only [wordsF, hdw]
          simp only [ih g (cs.dropWhile isLo) (Nat.le_trans hlo hf)
              (Nat.le_trans hlo hg),
            ih g (cs.dropWhile isDig) (Nat.le_trans hdig hf)
              (Nat.le_trans hdig hg),
            ih g (ds.dropWhile isLo) h1 h2,
            ih g (d :: ds) (Nat.le_trans hup hf) (Nat.le_trans hup hg),
            ih g cs hf hg]

/-- `wordsL`: empty input. -/
theorem wordsL_nil : wordsL [] = [] := rfl

/-- `wordsL` rewriting step: lowercase head. -/
theorem wordsL_lo (c : Char) (cs : List Char) (h : isLo c = true) :
    wordsL (c :: cs) =
      (c :: cs.takeWhile isLo) :: wordsL (cs.dropWhile isLo) := by
  show wordsF (cs.length + 1) (c :: cs) = _
  simp only [wordsF, h, if_pos]
  rw [wordsF_irr cs.length (cs.dropWhile isLo).length (cs.dropWhile isLo)
    (length_dropWhile_le _ _) (Nat.le_refl _)]
  rfl

/-- `wordsL` rewriting step: separator head (not a letter or digit). -/
theorem wordsL_sep (c : Char) (cs : List Char) (h1 : isLo c = false)
    (h2 : isDig c = false) (h3 : isUp c = false) :
    wordsL (c :: cs) = wordsL cs := by
  show wordsF (cs.length + 1) (c :: cs) = wordsF cs.length cs
  simp only [wordsF, h1, h2, h3, Bool.false_eq_true, if_false]

/-- `wordsL` rewriting step: uppercase head whose upper run reaches the end
of the string or is followed by a non-lowercase character. -/
theorem wordsL_up_break (c : Char) (cs : List Char) (h : isUp c = true)
    (h1 : isLo c = false) (h2 : isDig c = false)
    (hnext : ∀ d ds, cs.dropWhile isUp = d :: ds → isLo d = false) :
    wordsL (c :: cs) =
      (c :: cs.takeWhile isUp) :: wordsL (cs.dropWhile isUp) := by
  show wordsF (cs.length + 1) (c :: cs) = _
  simp only [wordsF, h, h1, h2, Bool.false_eq_true, if_false, if_pos]
  cases hdw : cs.dropWhile isUp with
  | nil => rfl
  | cons d ds =>
    have hld := hnext d ds hdw
    simp only [hld, Bool.false_eq_true, if_false]
    rw [wordsF_irr cs.length (d :: ds).length (d :: ds)
      (by rw [← hdw]; exact length_dropWhile_le _ _) (Nat.le_refl _)]
    rfl

/-- `wordsL` rewriting step: a lone uppercase letter followed directly by a
lowercase letter starts a capitalised word. -/
theorem wordsL_up_single (c d : Char) (cs : List Char) (h : isUp c = true)
    (h1 : isLo c = false) (h2 : isDig c = false) (hd : isLo d = true)
    (hnotup : isUp d = false) :
    wordsL (c :: d :: cs) =
      (c :: d :: cs.takeWhile isLo) :: wordsL (cs.dropWhile isLo) := by
  show wordsF ((d :: cs).length + 1) (c :: d :: cs) = _
  simp only [wordsF, h, h1, h2, Bool.false_eq_true, if_false, if_pos]
  have hdw : (d :: cs).dropWhile isUp = d :: cs := by
    simp [List.dropWhile, hnotup]
  have htw : (d :: cs).takeWhile isUp = [] := by
    simp [List.takeWhile, hnotup]
  rw [hdw, htw]
  simp only [hd, if_pos, List.length_cons]
  rw [wordsF_irr (cs.length + 1) (cs.dropWhile isLo).length (cs.dropWhile isLo)
    (Nat.le_succ_of_le (length_dropWhile_le _ _)) (Nat.le_refl _)]
  rfl

/-- Lodash capitalisation of a non-first camel word: lowercase the word, then
uppercase its first character. -/
def capWord (w : List Char) : List Char :=
  match w with
  | [] => []
  | c :: cs => upC c :: cs.map loC

/-- All-lowercase rendering of a word. -/
def lowWord (w : List Char) : List Char := w.map loC

/-- Concatenation of capitalised words (the tail of a camelCase rendering). -/
def camelCat (ws : List (List Char)) : List Char := (ws.map capWord).flatten

/-- `_.camelCase` on the character-list level. -/
def camelL (s : List Char) : List Char :=
  match wordsL s with
  | [] => []
  | w :: ws => lowWord w ++ camelCat ws

/-- `_.camelCase` (for ASCII identifier-style strings, see `wordsF`). -/
def camelLodash (s : String) : String := ⟨camelL s.data⟩

/-- Words joined by single underscores (the snake_case rendering). -/
def joinU : List (List Char) → List Char
  | [] => []
  | [w] => w
  | w :: ws => w ++ '_' :: joinU ws

/-- `_.snakeCase` on the character-list level. -/
def snakeL (s : List Char) : List Char := joinU ((wordsL s).map lowWord)

/-- `_.snakeCase` (for ASCII identifier-style strings, see `wordsF`). -/
def snakeLodash (s : String) : String := ⟨snakeL s.data⟩

example : camelLodash "user_id" = "userId" := rfl
example : camelLodash "a_b_c" = "aBC" := rfl
example : snakeLodash "aBC" = "a_bc" := rfl
example : snakeLodash "fooBar" = "foo_bar" := rfl
example : camelLodash "foo_bar" = "fooBar" := rfl
example : snakeLodash "BAZQux" = "baz_qux" := rfl
example : camelLodash "aBCde" = "aBCde" := rfl
example : snakeLodash "foo" = "foo" := rfl
example : camelLodash "foo2bar" = "foo2Bar" := rfl

/-! ## Character-level facts -/

theorem isLo_toNat {c : Char} (h : isLo c = true) :
    97 ≤ c.toNat ∧ c.toNat ≤ 122 := by
  simp only [isLo, Bool.and_eq_true, decide_eq_true_eq] at h
  obtain ⟨h1, h2⟩ := h
  constructor
  · exact h1
  · exact h2

theorem isUp_toNat {c : Char} (h : isUp c = true) :
    65 ≤ c.toNat ∧ c.toNat ≤ 90 := by
  simp only [isUp, Bool.and_eq_true, decide_eq_true_eq] at h
  obtain ⟨h1, h2⟩ := h
  constructor
  · exact h1
  · exact h2

theorem toNat_isLo {c : Char} (h1 : 97 ≤ c.toNat) (h2 : c.toNat ≤ 122) :
    isLo c = true := by
  simp only [isLo, Bool.and_eq_true, decide_eq_true_eq]
  exact ⟨h1, h2⟩

theorem toNat_isUp {c : Char} (h1 : 65 ≤ c.toNat) (h2 : c.toNat ≤ 90) :
    isUp c = true := by
  simp only [isUp, Bool.and_eq_true, decide_eq_true_eq]
  exact ⟨h1, h2⟩

theorem isLo_not_isUp {c : Char} (h : isLo c = true) : isUp c = false := by
  cases hu : isUp c
  · rfl
  · obtain ⟨h1, h2⟩ := isLo_toNat h
    obtain ⟨h3, h4⟩ := isUp_toNat hu
    omega

theorem isUp_not_isLo {c : Char} (h : isUp c = true) : isLo c = false := by
  cases hl : isLo c
  · rfl
  · obtain ⟨h1, h2⟩ := isUp_toNat h
    obtain ⟨h3, h4⟩ := isLo_toNat hl
    omega

theorem isLo_not_isDig {c : Char} (h : isLo c = true) : isDig c = false := by
  cases hd : isDig c
  · rfl
  · obtain ⟨h1, h2⟩ := isLo_toNat h
    simp only [isDig, Bool.and_eq_true, decide_eq_true_eq] at hd
    have hd2 : c.toNat ≤ 57 := hd.2
    omega

theorem isUp_not_isDig {c : Char} (h : isUp c = true) : isDig c = false := by
  cases hd : isDig c
  · rfl
  · obtain ⟨h1, h2⟩ := isUp_toNat h
    simp only [isDig, Bool.and_eq_true, decide_eq_true_eq] at hd
    have hd2 : c.toNat ≤ 57 := hd.2
    omega

theorem charOfNat_toNat {n : Nat} (h : n < 55296) :
    (Char.ofNat n).toNat = n := by
  unfold Char.ofNat
  rw [dif_pos (Or.inl h)]
  unfold Char.ofNatAux Char.toNat
  simp [UInt32.toNat, BitVec.toNat_ofNatLt]

theorem toNat_upC {c : Char} (h : isLo c = true) :
    (upC c).toNat = c.toNat - 32 := by
  obtain ⟨h1, h2⟩ := isLo_toNat h
  simp only [upC, h, if_pos]
  exact charOfNat_toNat (by omega)

theorem toNat_loC {c : Char} (h : isUp c = true) :
    (loC c).toNat = c.toNat + 32 := by
  obtain ⟨h1, h2⟩ := isUp_toNat h
  simp only [loC, h, if_pos]
  exact charOfNat_toNat (by omega)

theorem isUp_upC {c : Char} (h : isLo c = true) : isUp (upC c) = true := by
  obtain ⟨h1, h2⟩ := isLo_toNat h
  have := toNat_upC h
  exact toNat_isUp (by omega) (by omega)

theorem isLo_loC {c : Char} (h : isUp c = true) : isLo (loC c) = true := by
  obtain ⟨h1, h2⟩ := isUp_toNat h
  have := toNat_loC h
  exact toNat_isLo (by omega) (by omega)

theorem char_eq_of_toNat {c d : Char} (h : c.toNat = d.toNat) : c = d := by
  apply Char.ext
  apply UInt32.ext
  exact h

theorem loC_upC {c : Char} (h : isLo c = true) : loC (upC c) = c := by
  obtain ⟨h1, h2⟩ := isLo_toNat h
  apply char_eq_of_toNat
  rw [toNat_loC (isUp_upC h), toNat_upC h]
  omega

theorem upC_loC {c : Char} (h : isUp c = true) : upC (loC c) = c := by
  obtain ⟨h1, h2⟩ := isUp_toNat h
  apply char_eq_of_toNat
  rw [toNat_upC (isLo_loC h), toNat_loC h]
  omega

theorem loC_of_lower {c : Char} (h : isLo c = true) : loC c = c := by
  simp [loC, isLo_not_isUp h]

theorem upC_of_upper {c : Char} (h : isUp c = true) : upC c = c := by
  simp [upC, isUp_not_isLo h]

/-! ## takeWhile / dropWhile helpers -/

theorem takeWhile_all (p : α → Bool) :
    ∀ l : List α, (∀ x ∈ l, p x = true) → l.takeWhile p = l := by
  intro l
  induction l with
  | nil => intro _; rfl
  | cons a l ih =>
    intro h
    simp only [List.takeWhile, h a (by simp)]
    rw [ih (fun x hx => h x (by simp [hx]))]

theorem dropWhile_all (p : α → Bool) :
    ∀ l : List α, (∀ x ∈ l, p x = true) → l.dropWhile p = [] := by
  intro l
  induction l with
  | nil => intro _; rfl
  | cons a l ih =>
    intro h
    simp only [List.dropWhile, h a (by simp)]
    exact ih (fun x hx => h x (by simp [hx]))

theorem takeWhile_all_append (p : α → Bool) (c : α) (l2 : List α)
    (hc : p c = false) :
    ∀ l1 : List α, (∀ x ∈ l1, p x = true) →
      (l1 ++ c :: l2).takeWhile p = l1 := by
  intro l1
  induction l1 with
  | nil => intro _; simp [List.takeWhile, hc]
  | cons a l1 ih =>
    intro h
    simp only [List.cons_append, List.takeWhile, h a (by simp)]
    exact congrArg (List.cons a) (ih (fun x hx => h x (by simp [hx])))

theorem dropWhile_all_append (p : α → Bool) (c : α) (l2 : List α)
    (hc : p c = false) :
    ∀ l1 : List α, (∀ x ∈ l1, p x = true) →
      (l1 ++ c :: l2).dropWhile p = c :: l2 := by
  intro l1
  induction l1 with
  | nil => intro _; simp [List.dropWhile, hc]
  | cons a l1 ih =>
    intro h
    simp only [List.cons_append, List.dropWhile, h a (by simp)]
    exact ih (fun x hx => h x (by simp [hx]))

/-! ## Word-structure predicates -/

/-- A nonempty, all-lowercase-letter word. -/
def LowerW (w : List Char) : Prop := w ≠ [] ∧ ∀ c ∈ w, isLo c = true

/-- No two adjacent single-letter words.  lodash's conversions are lossy
exactly on camel forms with two adjacent uppercase letters (`"a_b_c"` →
`"aBC"` → `"a_bc"`); applied to the non-first words this rules that out. -/
def NoAdjS (ws : List (List Char)) : Prop :=
  List.Chain' (fun a b => ¬(a.length = 1 ∧ b.length = 1)) ws

/-- In a capitalised word, the head is uppercase and the rest is unchanged
for a lowercase source word. -/
theorem capWord_of_lower {w : List Char} (h : LowerW w) :
    ∃ c t, w = c :: t ∧ capWord w = upC c :: t ∧ isLo c = true ∧
      (∀ x ∈ t, isLo x = true) := by
  obtain ⟨hne, hlo⟩ := h
  cases w with
  | nil => exact absurd rfl hne
  | cons c t =>
    refine ⟨c, t, rfl, ?_, hlo c (by simp),
      fun x hx => hlo x (List.mem_cons_of_mem c hx)⟩
    simp only [capWord]
    congr 1
    exact (List.map_congr_left (fun x hx =>
      loC_of_lower (hlo x (List.mem_cons_of_mem c hx)))).trans (List.map_id t)

theorem lowWord_of_lower {w : List Char} (h : ∀ c ∈ w, isLo c = true) :
    lowWord w = w := by
  simp only [lowWord]
  exact (List.map_congr_left (fun x hx => loC_of_lower (h x hx))).trans
    (List.map_id w)

/-! ## The remaining `wordsL` equation: the give-back step -/

/-- Two uppercase letters followed by a lowercase one: the first uppercase
letter forms its own word and the second starts the next word. -/
theorem wordsL_up_give (c u d : Char) (cs : List Char) (hc : isUp c = true)
    (hu : isUp u = true) (hd : isLo d = true) :
    wordsL (c :: u :: d :: cs) = [c] :: wordsL (u :: d :: cs) := by
  have hcl := isUp_not_isLo hc
  have hcd := isUp_not_isDig hc
  have hdu := isLo_not_isUp hd
  have htw : (u :: d :: cs).takeWhile isUp = [u] := by
    simp [List.takeWhile, hu, hdu]
  have hdw : (u :: d :: cs).dropWhile isUp = d :: cs := by
    simp [List.dropWhile, hu, hdu]
  rw [wordsL_up_single u d cs hu (isUp_not_isLo hu) (isUp_not_isDig hu) hd hdu]
  show wordsF ((u :: d :: cs).length + 1) (c :: u :: d :: cs) = _
  simp only [wordsF, hcl, hcd, Bool.false_eq_true, if_false, hc, if_pos, htw,
    hdw, hd, List.length_cons]
  rw [wordsF_irr (cs.length + 1 + 1) (cs.dropWhile isLo).length
    (cs.dropWhile isLo)
    (Nat.le_trans (length_dropWhile_le _ _) (by omega)) (Nat.le_refl _)]
  simp [List.dropLast, List.getLast]
  rfl

/-! ## Parsing snake and camel renderings back into words -/

theorem underscore_not_lo : isLo '_' = false := by decide
theorem underscore_not_up : isUp '_' = false := by decide
theorem underscore_not_dig : isDig '_' = false := by decide

/-- A well-formed snake rendering parses back into its word list. -/
theorem words_joinU : ∀ ws : List (List Char), (∀ w ∈ ws, LowerW w) →
    ws ≠ [] → wordsL (joinU ws) = ws := by
  intro ws
  induction ws with
  | nil => intro _ h; exact absurd rfl h
  | cons w ws ih =>
    intro hall _
    obtain ⟨hne, hlo⟩ := hall w (by simp)
    obtain ⟨c, t, rfl⟩ : ∃ c t, w = c :: t := by
      cases w with
      | nil => exact absurd rfl hne
      | cons c t => exact ⟨c, t, rfl⟩
    have hc : isLo c = true := hlo c (by simp)
    have ht : ∀ x ∈ t, isLo x = true :=
      fun x hx => hlo x (List.mem_cons_of_mem c hx)
    cases ws with
    | nil =>
      show wordsL (c :: t) = [c :: t]
      rw [wordsL_lo c t hc, takeWhile_all isLo t ht, dropWhile_all isLo t ht]
      rfl
    | cons w2 ws2 =>
      show wordsL (c :: (t ++ '_' :: joinU (w2 :: ws2))) = _
      rw [wordsL_lo c _ hc,
        takeWhile_all_append isLo '_' _ underscore_not_lo t ht,
        dropWhile_all_append isLo '_' _ underscore_not_lo t ht,
        wordsL_sep '_' _ underscore_not_lo underscore_not_dig
          underscore_not_up,
        ih (fun x hx => hall x (List.mem_cons_of_mem _ hx)) (by simp)]

/-- A sequence of capitalised words (no two adjacent single-letter ones)
parses back into exactly those capitalised words. -/
theorem words_camelCat : ∀ ws : List (List Char), (∀ w ∈ ws, LowerW w) →
    NoAdjS ws → wordsL (camelCat ws) = ws.map capWord := by
  intro ws
  induction ws with
  | nil => intro _ _; rfl
  | cons w rest ih =>
    intro hall hadj
    obtain ⟨c, t, rfl, hcap, hc, ht⟩ := capWord_of_lower (hall w (by simp))
    have hrest : ∀ w' ∈ rest, LowerW w' :=
      fun w' hw' => hall w' (List.mem_cons_of_mem _ hw')
    have hadjr : NoAdjS rest := List.Chain'.tail hadj
    have hcU : isUp (upC c) = true := isUp_upC hc
    cases t with
    | cons d t' =>
      -- multi-letter head word
      have hd : isLo d = true := ht d (by simp)
      have ht' : ∀ x ∈ t', isLo x = true :=
        fun x hx => ht x (List.mem_cons_of_mem d hx)
      show wordsL (capWord (c :: d :: t') ++ camelCat rest) = _
      rw [hcap]
      show wordsL (upC c :: d :: (t' ++ camelCat rest)) = _
      rw [wordsL_up_single (upC c) d _ hcU (isUp_not_isLo hcU)
        (isUp_not_isDig hcU) hd (isLo_not_isUp hd)]
      cases rest with
      | nil =>
        rw [show camelCat ([] : List (List Char)) = [] from rfl,
          List.append_nil, takeWhile_all isLo t' ht',
          dropWhile_all isLo t' ht', wordsL_nil]
        simp only [List.map_cons, List.map_nil, hcap]
      | cons w2 rest2 =>
        obtain ⟨e, t2, rfl, hcap2, he, ht2⟩ :=
          capWord_of_lower (hrest w2 (by simp))
        have heU : isUp (upC e) = true := isUp_upC he
        have hcat : camelCat ((e :: t2) :: rest2) =
            upC e :: (t2 ++ camelCat rest2) := by
          show capWord (e :: t2) ++ camelCat rest2 = _
          rw [hcap2]
          rfl
        rw [hcat, takeWhile_all_append isLo (upC e) _ (isUp_not_isLo heU) t'
            ht',
          dropWhile_all_append isLo (upC e) _ (isUp_not_isLo heU) t' ht',
          ← hcat, ih hrest hadjr]
        simp only [List.map_cons, hcap]
    | nil =>
      -- single-letter head word
      cases rest with
      | nil =>
        show wordsL (capWord [c] ++ []) = _
        rw [hcap, List.append_nil]
        rw [wordsL_up_break (upC c) [] hcU (isUp_not_isLo hcU)
          (isUp_not_isDig hcU) (fun d ds h => by simp at h)]
        rfl
      | cons w2 rest2 =>
        obtain ⟨e, t2, rfl, hcap2, he, ht2⟩ :=
          capWord_of_lower (hrest w2 (by simp))
        have heU : isUp (upC e) = true := isUp_upC he
        -- the adjacency restriction forces the next word to be multi-letter
        have hlen2 : t2 ≠ [] := by
          intro hnil
          subst hnil
          have := List.chain'_cons.mp hadj
          exact this.1 ⟨rfl, rfl⟩
        obtain ⟨d2, t2', rfl⟩ : ∃ d2 t2', t2 = d2 :: t2' := by
          cases t2 with
          | nil => exact absurd rfl hlen2
          | cons d2 t2' => exact ⟨d2, t2', rfl⟩
        have hd2 : isLo d2 = true := ht2 d2 (by simp)
        have hcat : camelCat ((e :: d2 :: t2') :: rest2) =
            upC e :: d2 :: (t2' ++ camelCat rest2) := by
          show capWord (e :: d2 :: t2') ++ camelCat rest2 = _
          rw [hcap2]
          rfl
        show wordsL (capWord [c] ++ camelCat ((e :: d2 :: t2') :: rest2)) = _
        rw [hcap, hcat]
        show wordsL (upC c :: upC e :: d2 :: (t2' ++ camelCat rest2)) = _
        rw [wordsL_up_give (upC c) (upC e) d2 _ hcU heU hd2, ← hcat,
          ih hrest hadjr]
        simp only [List.map_cons, hcap]

/-- A full camel rendering (lowercase first word, then capitalised words)
parses back into its word list. -/
theorem words_camelWords (w : List Char) (ws : List (List Char))
    (hw : LowerW w) (hall : ∀ w' ∈ ws, LowerW w') (hadj : NoAdjS ws) :
    wordsL (w ++ camelCat ws) = w :: ws.map capWord := by
  obtain ⟨hne, hlo⟩ := hw
  obtain ⟨c, t, rfl⟩ : ∃ c t, w = c :: t := by
    cases w with
    | nil => exact absurd rfl hne
    | cons c t => exact ⟨c, t, rfl⟩
  have hc : isLo c = true := hlo c (by simp)
  have ht : ∀ x ∈ t, isLo x = true :=
    fun x hx => hlo x (List.mem_cons_of_mem c hx)
  show wordsL (c :: (t ++ camelCat ws)) = _
  rw [wordsL_lo c _ hc]
  cases ws with
  | nil =>
    rw [show camelCat ([] : List (List Char)) = [] from rfl, List.append_nil,
      takeWhile_all isLo t ht, dropWhile_all isLo t ht, wordsL_nil]
    rfl
  | cons w2 ws2 =>
    obtain ⟨e, t2, rfl, hcap2, he, ht2⟩ :=
      capWord_of_lower (hall w2 (by simp))
    have heU : isUp (upC e) = true := isUp_upC he
    have hcat : camelCat ((e :: t2) :: ws2) = upC e :: (t2 ++ camelCat ws2) := by
      show capWord (e :: t2) ++ camelCat ws2 = _
      rw [hcap2]
      rfl
    rw [hcat, takeWhile_all_append isLo (upC e) _ (isUp_not_isLo heU) t ht,
      dropWhile_all_append isLo (upC e) _ (isUp_not_isLo heU) t ht, ← hcat,
      words_camelCat _ hall hadj]

/-! ## Key predicates and key-level round trips -/

/-- Well-formed snake_case identifier keys: one or more nonempty lowercase
words joined by single underscores. -/
def SnakeKey (s : String) : Prop :=
  ∃ ws, (∀ w ∈ ws, LowerW w) ∧ ws ≠ [] ∧ s.data = joinU ws

/-- `SnakeKey` plus the losslessness restriction: among the non-first words,
no two adjacent single-letter words (see `NoAdjS`). -/
def SnakeKeyR (s : String) : Prop :=
  ∃ ws, (∀ w ∈ ws, LowerW w) ∧ ws ≠ [] ∧ NoAdjS ws.tail ∧ s.data = joinU ws

/-- Well-formed (lodash-canonical) camelCase identifier keys: a lowercase
first word followed by capitalised words, no two adjacent uppercase letters.
-/
def CamelKey (s : String) : Prop :=
  ∃ w ws, LowerW w ∧ (∀ w' ∈ ws, LowerW w') ∧ NoAdjS ws ∧
    s.data = w ++ camelCat ws

theorem SnakeKeyR.toSnakeKey {s : String} (h : SnakeKeyR s) : SnakeKey s := by
  obtain ⟨ws, hall, hne, _, hdata⟩ := h
  exact ⟨ws, hall, hne, hdata⟩

theorem string_mk_data (s : String) : (⟨s.data⟩ : String) = s := by
  cases s
  rfl

theorem joinU_cons (w : List Char) (ws : List (List Char)) (h : ws ≠ []) :
    joinU (w :: ws) = w ++ '_' :: joinU ws := by
  cases ws with
  | nil => exact absurd rfl h
  | cons w2 ws2 => rfl

theorem lowWord_capWord {w : List Char} (h : LowerW w) :
    lowWord (capWord w) = w := by
  obtain ⟨c, t, rfl, hcap, hc, ht⟩ := capWord_of_lower h
  rw [hcap]
  show loC (upC c) :: t.map loC = c :: t
  rw [loC_upC hc]
  congr 1
  exact (List.map_congr_left (fun x hx => loC_of_lower (ht x hx))).trans
    (List.map_id t)

theorem capWord_capWord {w : List Char} (h : LowerW w) :
    capWord (capWord w) = capWord w := by
  obtain ⟨c, t, rfl, hcap, hc, ht⟩ := capWord_of_lower h
  rw [hcap]
  simp only [capWord]
  rw [upC_of_upper (isUp_upC hc)]
  exact congrArg (List.cons (upC c))
    ((List.map_congr_left (fun x hx => loC_of_lower (ht x hx))).trans
      (List.map_id t))

/-- `camelL` of a snake rendering. -/
theorem camelL_joinU (w : List Char) (ws : List (List Char))
    (hall : ∀ w' ∈ w :: ws, LowerW w') :
    camelL (joinU (w :: ws)) = w ++ camelCat ws := by
  simp only [camelL, words_joinU (w :: ws) hall (by simp)]
  rw [lowWord_of_lower (hall w (by simp)).2]

/-- `snakeL` of a camel rendering. -/
theorem snakeL_camelWords (w : List Char) (ws : List (List Char))
    (hw : LowerW w) (hall : ∀ w' ∈ ws, LowerW w') (hadj : NoAdjS ws) :
    snakeL (w ++ camelCat ws) = joinU (w :: ws) := by
  simp only [snakeL, words_camelWords w ws hw hall hadj, List.map_cons,
    List.map_map]
  rw [lowWord_of_lower hw.2]
  exact congrArg (fun l => joinU (w :: l))
    ((List.map_congr_left (fun x hx => lowWord_capWord (hall x hx))).trans
      (List.map_id ws))

/-- snake → camel → snake is the identity on restricted snake keys, and the
intermediate value is a canonical camel key. -/
theorem snake_camel_snake {s : String} (h : SnakeKeyR s) :
    snakeLodash (camelLodash s) = s ∧ CamelKey (camelLodash s) := by
  obtain ⟨ws, hall, hne, hadj, hdata⟩ := h
  obtain ⟨w, ws', rfl⟩ : ∃ w ws', ws = w :: ws' := by
    cases ws with
    | nil => exact absurd rfl hne
    | cons w ws' => exact ⟨w, ws', rfl⟩
  have hadj' : NoAdjS ws' := hadj
  have hcam : camelLodash s = ⟨w ++ camelCat ws'⟩ := by
    show (⟨camelL s.data⟩ : String) = _
    rw [hdata, camelL_joinU w ws' hall]
  constructor
  · rw [hcam]
    show (⟨snakeL (w ++ camelCat ws')⟩ : String) = s
    rw [snakeL_camelWords w ws' (hall w (by simp))
      (fun x hx => hall x (List.mem_cons_of_mem _ hx)) hadj', ← hdata]
  · exact ⟨w, ws', hall w (by simp),
      fun x hx => hall x (List.mem_cons_of_mem _ hx), hadj', by rw [hcam]⟩

/-- camel → snake → camel is the identity on canonical camel keys, and the
intermediate value is a restricted snake key. -/
theorem camel_snake_camel {s : String} (h : CamelKey s) :
    camelLodash (snakeLodash s) = s ∧ SnakeKeyR (snakeLodash s) := by
  obtain ⟨w, ws, hw, hall, hadj, hdata⟩ := h
  have hsnk : snakeLodash s = ⟨joinU (w :: ws)⟩ := by
    show (⟨snakeL s.data⟩ : String) = _
    rw [hdata, snakeL_camelWords w ws hw hall hadj]
  have hall' : ∀ w' ∈ w :: ws, LowerW w' := by
    intro w' hw'
    rcases List.mem_cons.mp hw' with h1 | h2
    · exact h1 ▸ hw
    · exact hall w' h2
  constructor
  · rw [hsnk]
    show (⟨camelL (joinU (w :: ws))⟩ : String) = s
    rw [camelL_joinU w ws hall', ← hdata]
  · exact ⟨w :: ws, hall', by simp, hadj, by rw [hsnk]⟩

/-- `_.snakeCase` is the identity on well-formed snake keys (no restriction
needed). -/
theorem snakeLodash_id {s : String} (h : SnakeKey s) : snakeLodash s = s := by
  obtain ⟨ws, hall, hne, hdata⟩ := h
  show (⟨snakeL s.data⟩ : String) = s
  rw [hdata]
  simp only [snakeL]
  rw [words_joinU ws hall hne]
  rw [(List.map_congr_left (fun x hx => lowWord_of_lower (hall x hx).2)).trans
    (List.map_id ws), ← hdata]

/-- `_.camelCase` is the identity on canonical camel keys. -/
theorem camelLodash_id {s : String} (h : CamelKey s) : camelLodash s = s := by
  obtain ⟨w, ws, hw, hall, hadj, hdata⟩ := h
  show (⟨camelL s.data⟩ : String) = s
  rw [hdata]
  simp only [camelL, words_camelWords w ws hw hall hadj]
  rw [lowWord_of_lower hw.2]
  have hcc : camelCat (ws.map capWord) = camelCat ws := by
    simp only [camelCat, List.map_map]
    exact congrArg List.flatten
      (List.map_congr_left (fun x hx => capWord_capWord (hall x hx)))
  rw [hcc, ← hdata]

/-! ## Character membership and collision-freedom of renamed keys -/

theorem mem_joinU {ws : List (List Char)} (hall : ∀ w ∈ ws, LowerW w) :
    ∀ c ∈ joinU ws, isLo c = true ∨ c = '_' := by
  induction ws with
  | nil => intro c hc; simp [joinU] at hc
  | cons w ws ih =>
    intro c hc
    cases ws with
    | nil =>
      exact Or.inl ((hall w (by simp)).2 c hc)
    | cons w2 ws2 =>
      rw [joinU_cons w (w2 :: ws2) (by simp)] at hc
      rcases List.mem_append.mp hc with h1 | h2
      · exact Or.inl ((hall w (by simp)).2 c h1)
      · rcases List.mem_cons.mp h2 with h3 | h4
        · exact Or.inr h3
        · exact ih (fun x hx => hall x (List.mem_cons_of_mem _ hx)) c h4

theorem mem_camelCat {ws : List (List Char)} (hall : ∀ w ∈ ws, LowerW w) :
    ∀ c ∈ camelCat ws, isLo c = true ∨ isUp c = true := by
  induction ws with
  | nil => intro c hc; simp [camelCat] at hc
  | cons w ws ih =>
    intro c hc
    obtain ⟨e, t, rfl, hcap, he, ht⟩ := capWord_of_lower (hall w (by simp))
    have : camelCat ((e :: t) :: ws) = (upC e :: t) ++ camelCat ws := by
      show capWord (e :: t) ++ camelCat ws = _
      rw [hcap]
    rw [this] at hc
    rcases List.mem_append.mp hc with h1 | h2
    · rcases List.mem_cons.mp h1 with h3 | h4
      · exact Or.inr (h3 ▸ isUp_upC he)
      · exact Or.inl (ht c h4)
    · exact ih (fun x hx => hall x (List.mem_cons_of_mem _ hx)) c h2

theorem mem_camelWords {w : List Char} {ws : List (List Char)} (hw : LowerW w)
    (hall : ∀ w' ∈ ws, LowerW w') :
    ∀ c ∈ w ++ camelCat ws, isLo c = true ∨ isUp c = true := by
  intro c hc
  rcases List.mem_append.mp hc with h1 | h2
  · exact Or.inl (hw.2 c h1)
  · exact mem_camelCat hall c h2

/-- Renaming a snake key to camel either fixes it or moves it out of the
snake-key class entirely (the renamed key has an uppercase letter). -/
theorem camel_fix_or_fresh {k : String} (h : SnakeKeyR k) :
    camelLodash k = k ∨ ∀ t : String, SnakeKey t → camelLodash k ≠ t := by
  obtain ⟨ws, hall, hne, hadj, hdata⟩ := h
  obtain ⟨w, ws', rfl⟩ : ∃ w ws', ws = w :: ws' := by
    cases ws with
    | nil => exact absurd rfl hne
    | cons w ws' => exact ⟨w, ws', rfl⟩
  have hcam : camelLodash k = ⟨w ++ camelCat ws'⟩ := by
    show (⟨camelL k.data⟩ : String) = _
    rw [hdata, camelL_joinU w ws' hall]
  cases ws' with
  | nil =>
    left
    rw [hcam]
    have h1 : w ++ camelCat [] = w := by simp [camelCat]
    have h2 : k.data = w := hdata
    rw [h1, ← h2]
  | cons w2 ws2 =>
    right
    intro t ht hEq
    obtain ⟨e, t2, rfl, hcap2, he, ht2⟩ :=
      capWord_of_lower (hall w2 (by simp [List.mem_cons]))
    have hupmem : upC e ∈ w ++ camelCat ((e :: t2) :: ws2) := by
      have : camelCat ((e :: t2) :: ws2) = (upC e :: t2) ++ camelCat ws2 := by
        show capWord (e :: t2) ++ camelCat ws2 = _
        rw [hcap2]
      rw [this]
      simp
    have hmem_t : upC e ∈ t.data := by
      rw [← hEq, hcam]
      exact hupmem
    obtain ⟨ws3, hall3, _, hdata3⟩ := ht
    rw [hdata3] at hmem_t
    rcases mem_joinU hall3 (upC e) hmem_t with h1 | h2
    · rw [isUp_not_isLo (isUp_upC he)] at h1
      cases h1
    · have := isUp_upC he
      rw [h2] at this
      rw [underscore_not_up] at this
      cases this

/-- Renaming a camel key to snake either fixes it or moves it out of the
camel-key class entirely (the renamed key has an underscore). -/
theorem snake_fix_or_fresh {k : String} (h : CamelKey k) :
    snakeLodash k = k ∨ ∀ t : String, CamelKey t → snakeLodash k ≠ t := by
  obtain ⟨w, ws, hw, hall, hadj, hdata⟩ := h
  have hsnk : snakeLodash k = ⟨joinU (w :: ws)⟩ := by
    show (⟨snakeL k.data⟩ : String) = _
    rw [hdata, snakeL_camelWords w ws hw hall hadj]
  cases ws with
  | nil =>
    left
    rw [hsnk]
    have h1 : (joinU [w] : List Char) = w := rfl
    have h2 : k.data = w := by
      rw [hdata]
      simp [camelCat]
    rw [h1, ← h2]
  | cons w2 ws2 =>
    right
    intro t ht hEq
    have humem : '_' ∈ joinU (w :: w2 :: ws2) := by
      rw [joinU_cons w (w2 :: ws2) (by simp)]
      simp
    have hmem_t : '_' ∈ t.data := by
      rw [← hEq, hsnk]
      exact humem
    obtain ⟨w3, ws3, hw3, hall3, _, hdata3⟩ := ht
    rw [hdata3] at hmem_t
    rcases mem_camelWords hw3 hall3 '_' hmem_t with h1 | h2
    · rw [underscore_not_lo] at h1
      cases h1
    · rw [underscore_not_up] at h2
      cases h2

/-- `_.camelCase` is injective on restricted snake keys. -/
theorem camel_inj_on_snakeR {a b : String} (ha : SnakeKeyR a)
    (hb : SnakeKeyR b) (h : camelLodash a = camelLodash b) : a = b := by
  have h1 := (snake_camel_snake ha).1
  have h2 := (snake_camel_snake hb).1
  rw [← h1, ← h2, h]

/-- `_.snakeCase` is injective on canonical camel keys. -/
theorem snake_inj_on_camel {a b : String} (ha : CamelKey a)
    (hb : CamelKey b) (h : snakeLodash a = snakeLodash b) : a = b := by
  have h1 := (camel_snake_camel ha).1
  have h2 := (camel_snake_camel hb).1
  rw [← h1, ← h2, h]

/-! ## The key-case transformer (`HttpHepler` in `src/http.helper.ts`)

`_snakeToHump` and `_humpToSnake` are textually identical up to the key
rename function (`_.camelCase` vs `_.snakeCase`), so they are modelled once,
parametrised by `ren`.  The JS functions mutate their argument in place;
`keyTrF ren fuel d v` is the value of the argument after the call
`_xxx(arg, d)` (and on trees that value is also the returned one, which the
public wrappers use).

The source:
* decrements `depth` on entry and returns at once when it goes negative
  (so a call with `depth ≤ 0` leaves the subtree untouched);
* on an array, calls itself on each element *without* passing the depth
  (`target.forEach(item => HttpHepler._snakeToHump(item))`), so elements
  restart with the default budget `10`;
* on anything else, iterates `for (const key in target)` over the keys
  present at loop entry (keys deleted meanwhile are skipped, keys added are
  not visited), renames `key` to `ren key` when they differ
  (`target[newKey] = target[key]; delete target[key]` — in-place update for
  an existing `newKey`, append otherwise, then delete), and recurses with the
  decremented depth into `target[newKey]` when `typeof` says `'object'`
  (objects, arrays and `null`).

The first `Nat` is fuel making the recursion structural; `keyTr_irr` below
proves any fuel at least `needV v` gives the same result, and the wrappers
`snakeToHump`/`humpToSnake` supply exactly `needV v`. -/

mutual
def keyTrF (ren : String → String) : Nat → Nat → JVal → JVal
  | 0, _, v => v
  | _ + 1, 0, v => v
  | f + 1, _ + 1, .arr xs => .arr (xs.map (keyTrF ren f 10))
  | f + 1, d + 1, .obj fs => .obj (keyFsF ren f d (keysOf fs) fs)
  | _ + 1, _ + 1, v => v

def keyFsF (ren : String → String) :
    Nat → Nat → List String → List (String × JVal) → List (String × JVal)
  | 0, _, _, fs => fs
  | _ + 1, _, [], fs => fs
  | f + 1, d, k :: ks, fs =>
    if hasKey fs k then
      let nk := ren k
      let fs1 := if nk = k then fs else objDel (objSet fs nk (getK fs k)) k
      let v := getK fs1 nk
      let fs2 := if v.isObjType then objSet fs1 nk (keyTrF ren f d v) else fs1
      keyFsF ren f d ks fs2
    else
      keyFsF ren f d ks fs
end

mutual
/-- Weighted size: an upper bound for the fuel `keyTrF` can consume along any
path (see `keyTr_irr`). -/
def needV : JVal → Nat
  | .arr xs => 1 + needL xs
  | .obj fs => 1 + fs.length + needF fs
  | _ => 1

def needL : List JVal → Nat
  | [] => 0
  | x :: xs => max (needV x) (needL xs)

def needF : List (String × JVal) → Nat
  | [] => 0
  | p :: fs => max (needV p.2) (needF fs)
end

/-- `HttpHepler.snakeToHump(target, depth = 10)`: deep-copies the input
(`_.cloneDeep`, the identity on pure values) and runs `_snakeToHump` on the
copy.  `_snakeToHump` returns `undefined` when the budget is exhausted on
entry, and otherwise the (mutated) copy. -/
def snakeToHump (v : JVal) (d : Nat) : JVal :=
  if d = 0 then .undef else keyTrF camelLodash (needV v) d v

/-- `HttpHepler.humpToSnake(target, depth = 10)`, symmetrically. -/
def humpToSnake (v : JVal) (d : Nat) : JVal :=
  if d = 0 then .undef else keyTrF snakeLodash (needV v) d v

example : snakeToHump (.obj [("user_id", .num 5)]) 10 =
    .obj [("userId", .num 5)] := rfl
example : humpToSnake (.obj [("userId", .num 5)]) 10 =
    .obj [("user_id", .num 5)] := rfl
example : snakeToHump (.obj [("a_b", .obj [("c_d", .num 1)]), ("x", .null)]) 10
    = .obj [("x", .null), ("aB", .obj [("cD", .num 1)])] := rfl
example : snakeToHump (.obj [("a_b", .num 1)]) 0 = .undef := rfl
example : snakeToHump (.arr [.obj [("a_b", .num 1)]]) 1 =
    .arr [.obj [("aB", .num 1)]] := rfl
example : snakeToHump (.obj [("k", .obj [("a_b", .num 1)])]) 1 =
    .obj [("k", .obj [("a_b", .num 1)])] := rfl

/-! ## Object-operation lemmas -/

theorem hasKey_objSet_self (fs : List (String × JVal)) (k : String)
    (v : JVal) : hasKey (objSet fs k v) k = true := by
  simp only [objSet]
  by_cases h : hasKey fs k
  · rw [if_pos h]
    simp only [hasKey, List.any_eq_true] at h ⊢
    obtain ⟨p, hp, hpk⟩ := h
    refine ⟨(k, v), List.mem_map.mpr ⟨p, hp, ?_⟩, by simp⟩
    rw [if_pos hpk]
  · rw [if_neg h]
    simp [hasKey]

theorem hasKey_objSet_ne (fs : List (String × JVal)) {k k' : String}
    (v : JVal) (h : k' ≠ k) : hasKey (objSet fs k v) k' = hasKey fs k' := by
  simp only [objSet]
  by_cases hk : hasKey fs k
  · rw [if_pos hk]
    simp only [hasKey]
    rw [Bool.eq_iff_iff]
    simp only [List.any_eq_true]
    constructor
    · rintro ⟨p, hp, hpk⟩
      obtain ⟨q, hq, rfl⟩ := List.mem_map.mp hp
      by_cases hqk : q.1 == k
      · rw [if_pos hqk] at hpk
        simp only [beq_iff_eq] at hpk
        exact absurd hpk.symm h
      · rw [if_neg hqk] at hpk
        exact ⟨q, hq, hpk⟩
    · rintro ⟨p, hp, hpk⟩
      by_cases hpk2 : p.1 == k
      · simp only [beq_iff_eq] at hpk hpk2
        rw [hpk2] at hpk
        exact absurd hpk.symm (fun hh => h (by simp [hh]))
      · exact ⟨p, List.mem_map.mpr ⟨p, hp, by rw [if_neg hpk2]⟩, hpk⟩
  · rw [if_neg hk]
    simp only [hasKey]
    rw [Bool.eq_iff_iff]
    simp only [List.any_eq_true]
    constructor
    · rintro ⟨p, hp, hpk⟩
      rcases List.mem_append.mp hp with h1 | h2
      · exact ⟨p, h1, hpk⟩
      · simp only [List.mem_singleton] at h2
        subst h2
        simp only [beq_iff_eq] at hpk
        exact absurd hpk (fun hh => h hh.symm)
    · rintro ⟨p, hp, hpk⟩
      exact ⟨p, List.mem_append.mpr (Or.inl hp), hpk⟩

theorem hasKey_objDel_ne (fs : List (String × JVal)) {k k' : String}
    (h : k' ≠ k) : hasKey (objDel fs k) k' = hasKey fs k' := by
  simp only [objDel, hasKey]
  rw [Bool.eq_iff_iff]
  simp only [List.any_eq_true]
  constructor
  · rintro ⟨p, hp, hpk⟩
    exact ⟨p, (List.mem_filter.mp hp).1, hpk⟩
  · rintro ⟨p, hp, hpk⟩
    refine ⟨p, List.mem_filter.mpr ⟨hp, ?_⟩, hpk⟩
    simp only [beq_iff_eq] at hpk
    simp [bne_iff_ne, hpk, h]

theorem length_objSet_of_hasKey (fs : List (String × JVal)) (k : String)
    (v : JVal) (h : hasKey fs k = true) :
    (objSet fs k v).length = fs.length := by
  simp [objSet, h]

theorem length_objSet_le (fs : List (String × JVal)) (k : String) (v : JVal) :
    (objSet fs k v).length ≤ fs.length + 1 := by
  simp only [objSet]
  by_cases h : hasKey fs k
  · simp [h]
  · simp [h]

theorem length_objDel_lt (fs : List (String × JVal)) (k : String)
    (h : hasKey fs k = true) : (objDel fs k).length < fs.length := by
  simp only [hasKey, List.any_eq_true] at h
  obtain ⟨p, hp, hpk⟩ := h
  simp only [objDel]
  induction fs with
  | nil => simp at hp
  | cons q fs ih =>
    rcases List.mem_cons.mp hp with h1 | h2
    · subst h1
      rw [List.filter_cons, if_neg (by simp_all)]
      exact Nat.lt_succ_of_le (List.length_filter_le _ _)
    · rw [List.filter_cons]
      by_cases hq : (q.1 != k) = true
      · rw [if_pos hq]
        simp only [List.length_cons]
        exact Nat.succ_lt_succ (ih h2)
      · rw [if_neg hq]
        exact Nat.lt_succ_of_le
          (Nat.le_of_lt (ih h2))

theorem length_objDel_le (fs : List (String × JVal)) (k : String) :
    (objDel fs k).length ≤ fs.length :=
  List.length_filter_le _ _

theorem getK_mem_of_hasKey (fs : List (String × JVal)) (k : String)
    (h : hasKey fs k = true) : (k, getK fs k) ∈ fs := by
  simp only [hasKey, List.any_eq_true] at h
  have hsome : (fs.find? (fun p => p.1 == k)).isSome := by
    rw [List.find?_isSome]
    obtain ⟨p, hp, hpk⟩ := h
    exact ⟨p, hp, hpk⟩
  obtain ⟨q, hq⟩ := Option.isSome_iff_exists.mp hsome
  have hqmem : q ∈ fs := List.mem_of_find?_eq_some hq
  have hqk0 := List.find?_some hq
  have hqk : (q.1 == k) = true := hqk0
  simp only [getK, hq, Option.elim]
  have hqe : q = (k, q.2) := by
    obtain ⟨q1, q2⟩ := q
    simp only [beq_iff_eq] at hqk
    simp [hqk]
  rw [← hqe]
  exact hqmem

/-! ## Bounds on the weighted size -/

theorem needV_pos : ∀ v : JVal, 1 ≤ needV v := by
  intro v
  cases v <;> simp [needV] <;> omega

theorem needV_le_needL {x : JVal} : ∀ {xs : List JVal}, x ∈ xs →
    needV x ≤ needL xs := by
  intro xs
  induction xs with
  | nil => intro h; simp at h
  | cons y ys ih =>
    intro h
    simp only [needL]
    rcases List.mem_cons.mp h with h1 | h2
    · subst h1; exact Nat.le_max_left _ _
    · exact Nat.le_trans (ih h2) (Nat.le_max_right _ _)

theorem needV_le_needF {p : String × JVal} : ∀ {fs : List (String × JVal)},
    p ∈ fs → needV p.2 ≤ needF fs := by
  intro fs
  induction fs with
  | nil => intro h; simp at h
  | cons q qs ih =>
    intro h
    simp only [needF]
    rcases List.mem_cons.mp h with h1 | h2
    · subst h1; exact Nat.le_max_left _ _
    · exact Nat.le_trans (ih h2) (Nat.le_max_right _ _)

theorem getK_needV_le (fs : List (String × JVal)) (k : String)
    (h : hasKey fs k = true) : needV (getK fs k) ≤ needF fs :=
  needV_le_needF (getK_mem_of_hasKey fs k h)

theorem needF_objDel_le (fs : List (String × JVal)) (k : String) :
    needF (objDel fs k) ≤ needF fs := by
  simp only [objDel]
  induction fs with
  | nil => exact Nat.le_refl _
  | cons q qs ih =>
    rw [List.filter_cons]
    by_cases hq : (q.1 != k) = true
    · rw [if_pos hq]
      simp only [needF]
      exact max_le_max (Nat.le_refl _) ih
    · rw [if_neg hq]
      simp only [needF]
      exact Nat.le_trans ih (Nat.le_max_right _ _)

theorem needF_append (fs gs : List (String × JVal)) :
    needF (fs ++ gs) = max (needF fs) (needF gs) := by
  induction fs with
  | nil => simp [needF]
  | cons q qs ih =>
    have h1 : (q :: qs) ++ gs = q :: (qs ++ gs) := rfl
    rw [h1]
    simp only [needF]
    rw [ih]
    omega

theorem needF_mapSet_le (fs : List (String × JVal)) (k : String) (v : JVal) :
    needF (fs.map (fun p => if p.1 == k then (k, v) else p)) ≤
      max (needF fs) (needV v) := by
  induction fs with
  | nil => simp [needF]
  | cons q qs ih =>
    simp only [List.map_cons, needF]
    by_cases hq : (q.1 == k) = true
    · rw [if_pos hq]
      have he : needV ((k, v) : String × JVal).2 = needV v := rfl
      rw [he]
      omega
    · rw [if_neg hq]
      omega

theorem needF_objSet_le (fs : List (String × JVal)) (k : String) (v : JVal) :
    needF (objSet fs k v) ≤ max (needF fs) (needV v) := by
  simp only [objSet]
  by_cases h : hasKey fs k
  · rw [if_pos h]
    exact needF_mapSet_le fs k v
  · rw [if_neg h]
    rw [needF_append]
    simp [needF]

theorem needL_map_le (g : JVal → JVal) (xs : List JVal)
    (h : ∀ x ∈ xs, needV (g x) ≤ needV x) :
    needL (xs.map g) ≤ needL xs := by
  induction xs with
  | nil => exact Nat.le_refl _
  | cons y ys ih =>
    simp only [List.map_cons, needL]
    exact max_le_max (h y (by simp))
      (ih (fun x hx => h x (List.mem_cons_of_mem _ hx)))

/-- The transformer never increases the weighted size. -/
theorem keyTr_shrink (ren : String → String) : ∀ f : Nat,
    (∀ d v, needV (keyTrF ren f d v) ≤ needV v) ∧
    (∀ d ks fs, needF (keyFsF ren f d ks fs) ≤ needF fs ∧
      (keyFsF ren f d ks fs).length ≤ fs.length) := by
  intro f
  induction f with
  | zero =>
    constructor
    · intro d v
      simp only [keyTrF]
      exact Nat.le_refl _
    · intro d ks fs
      simp only [keyFsF]
      exact ⟨Nat.le_refl _, Nat.le_refl _⟩
  | succ f ih =>
    obtain ⟨ihV, ihF⟩ := ih
    have hfields : ∀ d ks fs, needF (keyFsF ren (f + 1) d ks fs) ≤ needF fs ∧
        (keyFsF ren (f + 1) d ks fs).length ≤ fs.length := by
      intro d ks fs
      cases ks with
      | nil =>
        simp only [keyFsF]
        exact ⟨Nat.le_refl _, Nat.le_refl _⟩
      | cons k ks =>
        simp only [keyFsF]
        by_cases hk : hasKey fs k
        · rw [if_pos hk]
          have hw : needV (getK fs k) ≤ needF fs := getK_needV_le fs k hk
          set nk := ren k with hnk
          set fs1 := if nk = k then fs
            else objDel (objSet fs nk (getK fs k)) k with hfs1
          have hfs1n : needF fs1 ≤ needF fs := by
            rw [hfs1]
            by_cases he : nk = k
            · rw [if_pos he]
            · rw [if_neg he]
              refine Nat.le_trans (needF_objDel_le _ _) ?_
              refine Nat.le_trans (needF_objSet_le _ _ _) ?_
              omega
          have hfs1l : fs1.length ≤ fs.length := by
            rw [hfs1]
            by_cases he : nk = k
            · rw [if_pos he]
            · rw [if_neg he]
              have h1 : hasKey (objSet fs nk (getK fs k)) k = true := by
                rw [hasKey_objSet_ne fs (getK fs k) (fun hh => he hh.symm)]
                exact hk
              have h2 := length_objDel_lt _ k h1
              have h3 := length_objSet_le fs nk (getK fs k)
              omega
          have hkey1 : hasKey fs1 nk = true := by
            rw [hfs1]
            by_cases he : nk = k
            · rw [if_pos he, he]
              exact hk
            · rw [if_neg he, hasKey_objDel_ne _ he]
              exact hasKey_objSet_self fs nk (getK fs k)
          have hv : needV (getK fs1 nk) ≤ needF fs1 :=
            getK_needV_le fs1 nk hkey1
          set v := getK fs1 nk with hvdef
          by_cases ho : v.isObjType
          · rw [if_pos ho]
            have h4 : needF (objSet fs1 nk (keyTrF ren f d v)) ≤ needF fs1 := by
              refine Nat.le_trans (needF_objSet_le _ _ _) ?_
              have h5 := ihV d v
              omega
            have h6 : (objSet fs1 nk (keyTrF ren f d v)).length =
                fs1.length := length_objSet_of_hasKey fs1 nk _ hkey1
            obtain ⟨h7, h8⟩ := ihF d ks (objSet fs1 nk (keyTrF ren f d v))
            exact ⟨Nat.le_trans h7 (Nat.le_trans h4 hfs1n),
              by omega⟩
          · rw [if_neg ho]
            obtain ⟨h7, h8⟩ := ihF d ks fs1
            exact ⟨Nat.le_trans h7 hfs1n, Nat.le_trans h8 hfs1l⟩
        · rw [if_neg hk]
          exact ihF d ks fs
    constructor
    · intro d v
      cases d with
      | zero =>
        simp only [keyTrF]
        exact Nat.le_refl _
      | succ d =>
        cases v with
        | arr xs =>
          simp only [keyTrF, needV]
          have := needL_map_le (keyTrF ren f 10) xs
            (fun x _ => ihV 10 x)
          omega
        | obj fs =>
          simp only [keyTrF, needV]
          obtain ⟨h1, h2⟩ := ihF d (keysOf fs) fs
          omega
        | undef => simp only [keyTrF]; exact Nat.le_refl _
        | null => simp only [keyTrF]; exact Nat.le_refl _
        | bool b => simp only [keyTrF]; exact Nat.le_refl _
        | num n => simp only [keyTrF]; exact Nat.le_refl _
        | str s => simp only [keyTrF]; exact Nat.le_refl _
    · exact hfields

theorem keysOf_length (fs : List (String × JVal)) :
    (keysOf fs).length = fs.length := by
  simp [keysOf]

/-- Any fuel at least the weighted size gives the same transformer result,
so `needV v` (used by the wrappers) is as good as unlimited fuel. -/
theorem keyTr_irr (ren : String → String) : ∀ f : Nat,
    (∀ g d v, needV v ≤ f → needV v ≤ g →
      keyTrF ren f d v = keyTrF ren g d v) ∧
    (∀ g d ks fs, ks.length + needF fs ≤ f → ks.length + needF fs ≤ g →
      keyFsF ren f d ks fs = keyFsF ren g d ks fs) := by
  intro f
  induction f with
  | zero =>
    constructor
    · intro g d v hf _
      exact absurd (Nat.le_trans (needV_pos v) hf) (by omega)
    · intro g d ks fs hf _
      have hks : ks = [] := by
        cases ks with
        | nil => rfl
        | cons k ks => simp at hf
      subst hks
      cases g with
      | zero => rfl
      | succ g => simp only [keyFsF]
  | succ f ih =>
    obtain ⟨ihV, ihF⟩ := ih
    constructor
    · intro g d v hf hg
      cases g with
      | zero => exact absurd (Nat.le_trans (needV_pos v) hg) (by omega)
      | succ g =>
        cases d with
        | zero => simp only [keyTrF]
        | succ d =>
          cases v with
          | arr xs =>
            simp only [keyTrF, needV] at hf hg ⊢
            refine congrArg JVal.arr (List.map_congr_left ?_)
            intro x hx
            have hxle := needV_le_needL hx
            exact ihV g 10 x (by omega) (by omega)
          | obj fs =>
            simp only [keyTrF, needV] at hf hg ⊢
            refine congrArg JVal.obj ?_
            refine ihF g d (keysOf fs) fs ?_ ?_
            · rw [keysOf_length]; omega
            · rw [keysOf_length]; omega
          | undef => simp only [keyTrF]
          | null => simp only [keyTrF]
          | bool b => simp only [keyTrF]
          | num n => simp only [keyTrF]
          | str s => simp only [keyTrF]
    · intro g d ks fs hf hg
      cases g with
      | zero =>
        have hks : ks = [] := by
          cases ks with
          | nil => rfl
          | cons k ks => simp at hg
        subst hks
        simp only [keyFsF]
      | succ g =>
        cases ks with
        | nil => simp only [keyFsF]
        | cons k ks =>
          simp only [List.length_cons] at hf hg
          simp only [keyFsF]
          by_cases hk : hasKey fs k
          · rw [if_pos hk, if_pos hk]
            set nk := ren k with hnk
            set fs1 := if nk = k then fs
              else objDel (objSet fs nk (getK fs k)) k with hfs1
            have hw : needV (getK fs k) ≤ needF fs := getK_needV_le fs k hk
            have hfs1n : needF fs1 ≤ needF fs := by
              rw [hfs1]
              by_cases he : nk = k
              · rw [if_pos he]
              · rw [if_neg he]
                refine Nat.le_trans (needF_objDel_le _ _) ?_
                refine Nat.le_trans (needF_objSet_le _ _ _) ?_
                omega
            have hkey1 : hasKey fs1 nk = true := by
              rw [hfs1]
              by_cases he : nk = k
              · rw [if_pos he, he]
                exact hk
              · rw [if_neg he, hasKey_objDel_ne _ he]
                exact hasKey_objSet_self fs nk (getK fs k)
            set v := getK fs1 nk with hvdef
            have hv : needV v ≤ needF fs1 := getK_needV_le fs1 nk hkey1
            have hveq : keyTrF ren f d v = keyTrF ren g d v :=
              ihV g d v (by omega) (by omega)
            by_cases ho : v.isObjType
            · rw [if_pos ho, if_pos ho, hveq]
              set fs2 := objSet fs1 nk (keyTrF ren g d v) with hfs2
              refine ihF g d ks fs2 ?_ ?_
              · have h1 : needF fs2 ≤ needF fs1 := by
                  rw [hfs2]
                  refine Nat.le_trans (needF_objSet_le _ _ _) ?_
                  have h2 : needV (keyTrF ren g d v) ≤ needV v := by
                    rw [← hveq]
                    exact (keyTr_shrink ren f).1 d v
                  omega
                omega
              · have h1 : needF fs2 ≤ needF fs1 := by
                  rw [hfs2]
                  refine Nat.le_trans (needF_objSet_le _ _ _) ?_
                  have h2 : needV (keyTrF ren g d v) ≤ needV v := by
                    rw [← hveq]
                    exact (keyTr_shrink ren f).1 d v
                  omega
                omega
            · rw [if_neg ho, if_neg ho]
              refine ihF g d ks fs1 ?_ ?_
              · omega
              · omega
          · rw [if_neg hk, if_neg hk]
            refine ihF g d ks fs ?_ ?_
            · omega
            · omega

/-! ## Deep equality (lodash `isEqual` on JSON-like values): arrays compare
pointwise, objects compare as key → value maps (order-insensitive). -/

mutual
def deepEqB : JVal → JVal → Bool
  | .undef, .undef => true
  | .null, .null => true
  | .bool a, .bool b => a == b
  | .num a, .num b => a == b
  | .str a, .str b => a == b
  | .arr xs, .arr ys => deepEqA xs ys
  | .obj fs, .obj gs => fs.length == gs.length && deepEqO fs gs
  | _, _ => false

def deepEqA : List JVal → List JVal → Bool
  | [], [] => true
  | x :: xs, y :: ys => deepEqB x y && deepEqA xs ys
  | _, _ => false

def deepEqO : List (String × JVal) → List (String × JVal) → Bool
  | [], _ => true
  | p :: fs, gs =>
    (match gs.find? (fun q => q.1 == p.1) with
     | some q => deepEqB p.2 q.2
     | none => false) && deepEqO fs gs
end

example : deepEqB (.obj [("a", .num 1), ("b", .arr [.null])])
    (.obj [("b", .arr [.null]), ("a", .num 1)]) = true := rfl
example : deepEqB (.obj [("a", .num 1)]) (.obj [("a", .num 2)]) = false := rfl

/-- With distinct keys, `find?` retrieves exactly the member entry. -/
theorem find?_eq_of_nodup {fs : List (String × JVal)} {p : String × JVal}
    (hn : (keysOf fs).Nodup) (hp : p ∈ fs) :
    fs.find? (fun q => q.1 == p.1) = some p := by
  induction fs with
  | nil => simp at hp
  | cons q qs ih =>
    simp only [keysOf, List.map_cons, List.nodup_cons] at hn
    rcases List.mem_cons.mp hp with h1 | h2
    · subst h1
      exact List.find?_cons_of_pos _ (by simp)
    · have hq : (q.1 == p.1) = false := by
        rw [beq_eq_false_iff_ne]
        intro hh
        exact hn.1 (hh ▸ List.mem_map.mpr ⟨p, h2, rfl⟩)
      rw [List.find?_cons_of_neg _ (by simp [hq])]
      exact ih hn.2 h2

theorem getK_eq_of_mem {fs : List (String × JVal)} {k : String} {v : JVal}
    (hn : (keysOf fs).Nodup) (h : (k, v) ∈ fs) : getK fs k = v := by
  simp only [getK]
  rw [show (fun q : String × JVal => q.1 == k) =
    (fun q : String × JVal => q.1 == ((k, v) : String × JVal).1) from rfl]
  rw [find?_eq_of_nodup hn h]
  rfl

/-- Per-entry lookup success gives object-field deep equality. -/
theorem deepEqO_of_mem {rs fs : List (String × JVal)}
    (hn : (keysOf fs).Nodup)
    (h : ∀ r ∈ rs, ∃ p ∈ fs, r.1 = p.1 ∧ deepEqB r.2 p.2 = true) :
    deepEqO rs fs = true := by
  induction rs with
  | nil => rfl
  | cons r rs ih =>
    simp only [deepEqO, Bool.and_eq_true]
    constructor
    · obtain ⟨p, hp, hk, hdq⟩ := h r (by simp)
      have hfind : fs.find? (fun q => q.1 == r.1) = some p := by
        rw [show (fun q : String × JVal => q.1 == r.1) =
          (fun q : String × JVal => q.1 == p.1) by rw [hk]]
        exact find?_eq_of_nodup hn hp
      rw [hfind]
      exact hdq
    · exact ih (fun r' hr' => h r' (List.mem_cons_of_mem _ hr'))

theorem deepEqA_of_forall : ∀ {xs ys : List JVal}, xs.length = ys.length →
    (∀ i (hx : i < xs.length) (hy : i < ys.length),
      deepEqB (xs.get ⟨i, hx⟩) (ys.get ⟨i, hy⟩) = true) →
    deepEqA xs ys = true := by
  intro xs
  induction xs with
  | nil =>
    intro ys hl _
    cases ys with
    | nil => rfl
    | cons y ys => simp at hl
  | cons x xs ih =>
    intro ys hl h
    cases ys with
    | nil => simp at hl
    | cons y ys =>
      simp only [deepEqA, Bool.and_eq_true]
      refine ⟨h 0 (by simp) (by simp), ?_⟩
      refine ih (by simpa using hl) ?_
      intro i hx hy
      exact h (i + 1) (by simpa using Nat.succ_lt_succ hx)
        (by simpa using Nat.succ_lt_succ hy)

/-! ## Recursive well-formedness of values -/

mutual
/-- All object keys (recursively) satisfy `P`, and every object has distinct
keys (JS objects cannot have duplicate properties). -/
def ValOk (P : String → Prop) : JVal → Prop
  | .arr xs => ValOkL P xs
  | .obj fs => (keysOf fs).Nodup ∧ ValOkF P fs
  | _ => True

def ValOkL (P : String → Prop) : List JVal → Prop
  | [] => True
  | x :: xs => ValOk P x ∧ ValOkL P xs

def ValOkF (P : String → Prop) : List (String × JVal) → Prop
  | [] => True
  | p :: fs => P p.1 ∧ ValOk P p.2 ∧ ValOkF P fs
end

theorem ValOkL_mem {P : String → Prop} : ∀ {xs : List JVal} {x : JVal},
    ValOkL P xs → x ∈ xs → ValOk P x := by
  intro xs
  induction xs with
  | nil => intro x _ hx; simp at hx
  | cons y ys ih =>
    intro x h hx
    simp only [ValOkL] at h
    rcases List.mem_cons.mp hx with h1 | h2
    · exact h1 ▸ h.1
    · exact ih h.2 h2

theorem ValOkF_mem {P : String → Prop} : ∀ {fs : List (String × JVal)}
    {p : String × JVal}, ValOkF P fs → p ∈ fs → P p.1 ∧ ValOk P p.2 := by
  intro fs
  induction fs with
  | nil => intro p _ hp; simp at hp
  | cons q qs ih =>
    intro p h hp
    simp only [ValOkF] at h
    rcases List.mem_cons.mp hp with h1 | h2
    · exact h1 ▸ ⟨h.1, h.2.1⟩
    · exact ih h.2.2 h2

theorem ValOkF_of_forall {P : String → Prop} : ∀ {fs : List (String × JVal)},
    (∀ p ∈ fs, P p.1 ∧ ValOk P p.2) → ValOkF P fs := by
  intro fs
  induction fs with
  | nil => intro _; trivial
  | cons q qs ih =>
    intro h
    exact ⟨(h q (by simp)).1, (h q (by simp)).2,
      ih (fun p hp => h p (List.mem_cons_of_mem _ hp))⟩

theorem ValOkL_of_forall {P : String → Prop} : ∀ {xs : List JVal},
    (∀ x ∈ xs, ValOk P x) → ValOkL P xs := by
  intro xs
  induction xs with
  | nil => intro _; trivial
  | cons y ys ih =>
    intro h
    exact ⟨h y (by simp), ih (fun x hx => h x (List.mem_cons_of_mem _ hx))⟩

theorem ValOk_mono {P Q : String → Prop} (hpq : ∀ s, P s → Q s) :
    ∀ n v, needV v ≤ n → ValOk P v → ValOk Q v := by
  intro n
  induction n with
  | zero =>
    intro v hv _
    exact absurd (Nat.le_trans (needV_pos v) hv) (by omega)
  | succ n ih =>
    intro v hv h
    cases v with
    | arr xs =>
      simp only [ValOk] at h ⊢
      simp only [needV] at hv
      refine ValOkL_of_forall (fun x hx => ?_)
      have h1 := needV_le_needL hx
      exact ih x (by omega) (ValOkL_mem h hx)
    | obj fs =>
      simp only [ValOk] at h ⊢
      simp only [needV] at hv
      refine ⟨h.1, ValOkF_of_forall (fun p hp => ?_)⟩
      obtain ⟨hp1, hp2⟩ := ValOkF_mem h.2 hp
      have h1 := needV_le_needF hp
      exact ⟨hpq p.1 hp1, ih p.2 (by omega) hp2⟩
    | undef => trivial
    | null => trivial
    | bool b => trivial
    | num n => trivial
    | str s => trivial

/-- Deep equality is reflexive on values with (recursively) distinct keys. -/
theorem deepEqB_refl : ∀ n v, needV v ≤ n → ValOk (fun _ => True) v →
    deepEqB v v = true := by
  intro n
  induction n with
  | zero =>
    intro v hv _
    exact absurd (Nat.le_trans (needV_pos v) hv) (by omega)
  | succ n ih =>
    intro v hv h
    cases v with
    | undef => rfl
    | null => rfl
    | bool b => simp [deepEqB]
    | num m => simp [deepEqB]
    | str s => simp [deepEqB]
    | arr xs =>
      simp only [deepEqB, needV] at hv ⊢
      refine deepEqA_of_forall rfl (fun i hx hy => ?_)
      have hmem := List.get_mem xs i hx
      have h1 := needV_le_needL hmem
      exact ih _ (by omega) (ValOkL_mem h hmem)
    | obj fs =>
      simp only [deepEqB, needV, Bool.and_eq_true, beq_iff_eq] at hv ⊢
      refine ⟨trivial, deepEqO_of_mem h.1 (fun r hr => ?_)⟩
      refine ⟨r, hr, rfl, ?_⟩
      have h1 := needV_le_needF hr
      exact ih _ (by omega) (ValOkF_mem h.2 hr).2

/-! ## More object-operation lemmas, towards the fold characterisation -/

theorem hasKey_iff_mem {fs : List (String × JVal)} {k : String} :
    hasKey fs k = true ↔ k ∈ keysOf fs := by
  simp only [hasKey, List.any_eq_true, keysOf, List.mem_map]
  constructor
  · rintro ⟨p, hp, hpk⟩
    exact ⟨p, hp, by simpa using hpk.symm⟩
  · rintro ⟨p, hp, hpk⟩
    exact ⟨p, hp, by simp [hpk]⟩

theorem mem_objDel {fs : List (String × JVal)} {k : String}
    {p : String × JVal} : p ∈ objDel fs k ↔ p ∈ fs ∧ p.1 ≠ k := by
  simp only [objDel, List.mem_filter, bne_iff_ne]

theorem objDel_of_not_hasKey {fs : List (String × JVal)} {k : String}
    (h : hasKey fs k = false) : objDel fs k = fs := by
  simp only [objDel]
  refine List.filter_eq_self.mpr (fun p hp => ?_)
  rw [bne_iff_ne]
  intro hpk
  have hcon : hasKey fs k = true := by
    simp only [hasKey]
    exact List.any_eq_true.mpr ⟨p, hp, by simp [hpk]⟩
  rw [h] at hcon
  cases hcon

theorem objDel_append (fs gs : List (String × JVal)) (k : String) :
    objDel (fs ++ gs) k = objDel fs k ++ objDel gs k := by
  simp [objDel, List.filter_append]

theorem objSet_of_not_hasKey {fs : List (String × JVal)} {k : String}
    {v : JVal} (h : hasKey fs k = false) : objSet fs k v = fs ++ [(k, v)] := by
  simp only [objSet]
  rw [if_neg (by simp [h])]

theorem getK_append_right {fs : List (String × JVal)} {k : String} {v : JVal}
    (h : hasKey fs k = false) : getK (fs ++ [(k, v)]) k = v := by
  simp only [getK]
  rw [List.find?_append]
  have h1 : fs.find? (fun p => p.1 == k) = none := by
    rw [List.find?_eq_none]
    intro p hp
    simp only [hasKey] at h
    intro hpk
    have : fs.any (fun p => p.1 == k) = true :=
      List.any_eq_true.mpr ⟨p, hp, hpk⟩
    rw [h] at this
    cases this
  rw [h1]
  simp [List.find?]

theorem objSet_append_last {fs : List (String × JVal)} {k : String}
    {v w : JVal} (h : hasKey fs k = false) :
    objSet (fs ++ [(k, v)]) k w = fs ++ [(k, w)] := by
  have hk : hasKey (fs ++ [(k, v)]) k = true := by
    simp [hasKey]
  simp only [objSet, hk, if_pos, List.map_append]
  congr 1
  · refine (List.map_congr_left (fun p hp => ?_)).trans (List.map_id fs)
    have hpk : (p.1 == k) = false := by
      cases hpk2 : (p.1 == k) with
      | false => rfl
      | true =>
        have hcon : hasKey fs k = true := by
          simp only [hasKey]
          exact List.any_eq_true.mpr ⟨p, hp, hpk2⟩
        rw [h] at hcon
        cases hcon
    rw [if_neg (by simp [hpk])]
    rfl
  · simp

theorem keysOf_append (fs gs : List (String × JVal)) :
    keysOf (fs ++ gs) = keysOf fs ++ keysOf gs := by
  simp [keysOf]

theorem keysOf_objDel_nodup {fs : List (String × JVal)} {k : String}
    (h : (keysOf fs).Nodup) : (keysOf (objDel fs k)).Nodup := by
  have hsub : List.Sublist (objDel fs k) fs := List.filter_sublist fs
  have h' : (fs.map (fun p => p.1)).Nodup := h
  exact (hsub.map (fun p => p.1)).nodup h'

theorem mem_keysOf_objDel {fs : List (String × JVal)} {k k' : String} :
    k' ∈ keysOf (objDel fs k) ↔ k' ∈ keysOf fs ∧ k' ≠ k := by
  simp only [keysOf, List.mem_map]
  constructor
  · rintro ⟨p, hp, rfl⟩
    obtain ⟨h1, h2⟩ := mem_objDel.mp hp
    exact ⟨⟨p, h1, rfl⟩, h2⟩
  · rintro ⟨⟨p, hp, rfl⟩, h2⟩
    exact ⟨p, mem_objDel.mpr ⟨hp, h2⟩, rfl⟩

theorem keysOf_objSet_of_hasKey {fs : List (String × JVal)} {k : String}
    {v : JVal} (h : hasKey fs k = true) :
    keysOf (objSet fs k v) = keysOf fs := by
  simp only [objSet, h, if_pos, keysOf, List.map_map]
  refine List.map_congr_left (fun p hp => ?_)
  by_cases hpk : (p.1 == k) = true
  · simp only [Function.comp, hpk, if_pos]
    simp only [beq_iff_eq] at hpk
    exact hpk.symm
  · simp [Function.comp, hpk]

/-- Extracting the unique entry for a present key, as a permutation. -/
theorem perm_extract {fs : List (String × JVal)} {k : String}
    (hn : (keysOf fs).Nodup) (h : hasKey fs k = true) :
    fs.Perm (objDel fs k ++ [(k, getK fs k)]) := by
  induction fs with
  | nil => simp [hasKey] at h
  | cons q qs ih =>
    simp only [keysOf, List.map_cons, List.nodup_cons] at hn
    by_cases hq : (q.1 == k) = true
    · simp only [beq_iff_eq] at hq
      have hq2 : getK (q :: qs) k = q.2 := by
        simp only [getK]
        rw [List.find?_cons_of_pos _ (by simp [hq])]
        rfl
      have hq3 : objDel (q :: qs) k = qs := by
        simp only [objDel, List.filter_cons]
        rw [if_neg (by simp [hq])]
        refine List.filter_eq_self.mpr (fun p hp => ?_)
        rw [bne_iff_ne]
        intro hpk
        apply hn.1
        rw [hq, ← hpk]
        exact List.mem_map.mpr ⟨p, hp, rfl⟩
      rw [hq2, hq3]
      have : q = (k, q.2) := by
        obtain ⟨q1, q2⟩ := q
        simp only at hq
        simp [hq]
      rw [← this]
      exact (List.perm_append_singleton q qs).symm
    · have hk2 : hasKey qs k = true := by
        simp only [hasKey, List.any_eq_true] at h ⊢
        obtain ⟨p, hp, hpk⟩ := h
        rcases List.mem_cons.mp hp with h1 | h2
        · subst h1; exact absurd hpk hq
        · exact ⟨p, h2, hpk⟩
      have hgk : getK (q :: qs) k = getK qs k := by
        simp only [getK]
        rw [List.find?_cons_of_neg _ (by simp [hq])]
      have hdel : objDel (q :: qs) k = q :: objDel qs k := by
        simp only [objDel, List.filter_cons]
        rw [if_pos (by
          rw [bne_iff_ne]
          intro hh
          exact hq (by simp [hh]))]
      rw [hgk, hdel]
      exact (ih hn.2 hk2).cons q

/-! ## Closed form of the field fold, up to permutation -/

/-- The per-value transform at canonical fuel (what one fold step does to a
value). -/
def recVC (ren : String → String) (d : Nat) (v : JVal) : JVal :=
  if v.isObjType then keyTrF ren (needV v) d v else v

/-- Per-entry effect of the whole fold on an entry whose key is pending. -/
def foldTarget (ren : String → String) (d : Nat) (ks : List String)
    (p : String × JVal) : String × JVal :=
  if p.1 ∈ ks then (ren p.1, recVC ren d p.2) else p

theorem recVC_needV_le (ren : String → String) (d : Nat) (v : JVal) :
    needV (recVC ren d v) ≤ needV v := by
  simp only [recVC]
  by_cases ho : v.isObjType = true
  · rw [if_pos ho]
    exact (keyTr_shrink ren (needV v)).1 d v
  · rw [if_neg ho]

theorem mapUpd_keysOf (fs : List (String × JVal)) (k : String)
    (g : JVal → JVal) :
    keysOf (fs.map (fun p => if p.1 == k then (k, g p.2) else p)) =
      keysOf fs := by
  simp only [keysOf, List.map_map]
  refine List.map_congr_left (fun p hp => ?_)
  by_cases hpk : (p.1 == k) = true
  · simp only [Function.comp, hpk, if_pos]
    simp only [beq_iff_eq] at hpk
    exact hpk.symm
  · simp [Function.comp, hpk]

theorem mapUpd_needF_le (fs : List (String × JVal)) (k : String)
    (g : JVal → JVal) (hg : ∀ v, needV (g v) ≤ needV v) :
    needF (fs.map (fun p => if p.1 == k then (k, g p.2) else p)) ≤
      needF fs := by
  induction fs with
  | nil => exact Nat.le_refl _
  | cons q qs ihq =>
    simp only [List.map_cons, needF]
    by_cases hq : (q.1 == k) = true
    · rw [if_pos hq]
      have h1 : needV ((k, g q.2) : String × JVal).2 ≤ needV q.2 := hg q.2
      omega
    · rw [if_neg hq]
      omega

/-- With distinct pending keys taken from the object, renames that are
either fixed points or fresh, and injective renaming, the field fold is (up
to permutation) a per-entry map. -/
theorem keyFs_perm (ren : String → String) :
    ∀ (ks : List String) (fs : List (String × JVal)) (f d : Nat),
    ks.Nodup → (keysOf fs).Nodup → (∀ k ∈ ks, k ∈ keysOf fs) →
    (∀ k ∈ ks, ren k = k ∨ ren k ∉ keysOf fs) →
    (∀ a ∈ ks, ∀ b ∈ ks, ren a = ren b → a = b) →
    ks.length + needF fs ≤ f →
    (keyFsF ren f d ks fs).Perm (fs.map (foldTarget ren d ks)) := by
  intro ks
  induction ks with
  | nil =>
    intro fs f d _ _ _ _ _ _
    have h1 : keyFsF ren f d [] fs = fs := by
      cases f
      · simp only [keyFsF]
      · simp only [keyFsF]
    have h2 : fs.map (foldTarget ren d []) = fs := by
      refine (List.map_congr_left (fun p hp => ?_)).trans (List.map_id fs)
      simp [foldTarget]
    rw [h1, h2]
  | cons k ks ih =>
    intro fs f d hks hnd hsub hfresh hinj hfuel
    obtain ⟨f', rfl⟩ : ∃ f', f = f' + 1 := by
      cases f with
      | zero => simp at hfuel
      | succ f' => exact ⟨f', rfl⟩
    simp only [List.nodup_cons] at hks
    have hkfs : hasKey fs k = true := hasKey_iff_mem.mpr (hsub k (by simp))
    have hv0n : needV (getK fs k) ≤ needF fs := getK_needV_le fs k hkfs
    simp only [List.length_cons] at hfuel
    simp only [keyFsF, hkfs, if_pos]
    by_cases hre : ren k = k
    · -- the rename fixes the key: in-place update
      rw [if_pos hre, hre]
      have hfs2 : (if (getK fs k).isObjType = true then
            objSet fs k (keyTrF ren f' d (getK fs k)) else fs) =
          fs.map (fun p => if p.1 == k then (k, recVC ren d p.2) else p) := by
        by_cases ho : (getK fs k).isObjType = true
        · rw [if_pos ho]
          have hT : keyTrF ren f' d (getK fs k) =
              recVC ren d (getK fs k) := by
            simp only [recVC, ho, if_pos]
            exact (keyTr_irr ren f').1 (needV (getK fs k)) d (getK fs k)
              (by omega) (Nat.le_refl _)
          rw [hT]
          simp only [objSet, hkfs, if_pos]
          refine List.map_congr_left (fun p hp => ?_)
          by_cases hpk : (p.1 == k) = true
          · rw [if_pos hpk, if_pos hpk]
            simp only [beq_iff_eq] at hpk
            have hval : getK fs k = p.2 := by
              refine getK_eq_of_mem hnd ?_
              obtain ⟨p1, p2⟩ := p
              simp only at hpk
              rw [← hpk]
              exact hp
            rw [hval]
          · rw [if_neg hpk, if_neg hpk]
        · rw [if_neg ho]
          refine ((List.map_congr_left (fun p hp => ?_)).trans
            (List.map_id fs)).symm
          by_cases hpk : (p.1 == k) = true
          · rw [if_pos hpk]
            simp only [beq_iff_eq] at hpk
            have hval : getK fs k = p.2 := by
              refine getK_eq_of_mem hnd ?_
              obtain ⟨p1, p2⟩ := p
              simp only at hpk
              rw [← hpk]
              exact hp
            have hro : recVC ren d p.2 = p.2 := by
              simp only [recVC]
              rw [if_neg (by rw [← hval]; exact ho)]
            rw [hro]
            obtain ⟨p1, p2⟩ := p
            simp only at hpk
            rw [hpk]
            rfl
          · rw [if_neg hpk]
            rfl
      rw [hfs2]
      have hkeys2 := mapUpd_keysOf fs k (recVC ren d)
      have hneed2 := mapUpd_needF_le fs k (recVC ren d) (recVC_needV_le ren d)
      have hperm2 := ih
        (fs.map (fun p => if p.1 == k then (k, recVC ren d p.2) else p)) f' d
        hks.2
        (by rw [hkeys2]; exact hnd)
        (fun k' hk' => by
          rw [hkeys2]
          exact hsub k' (List.mem_cons_of_mem _ hk'))
        (fun k' hk' => by
          rw [hkeys2]
          exact hfresh k' (List.mem_cons_of_mem _ hk'))
        (fun a ha b hb => hinj a (List.mem_cons_of_mem _ ha) b
          (List.mem_cons_of_mem _ hb))
        (by omega)
      refine hperm2.trans ?_
      have hcomp : (fs.map (fun p =>
          if p.1 == k then (k, recVC ren d p.2) else p)).map
            (foldTarget ren d ks) = fs.map (foldTarget ren d (k :: ks)) := by
        rw [List.map_map]
        refine List.map_congr_left (fun p hp => ?_)
        by_cases hpk : (p.1 == k) = true
        · have hp1 : p.1 = k := by simpa using hpk
          simp only [Function.comp, hpk, if_pos]
          simp only [foldTarget]
          rw [if_neg (show ¬ ((k, recVC ren d p.2) : String × JVal).1 ∈ ks by
            simpa using hks.1)]
          rw [if_pos (show p.1 ∈ k :: ks by simp [hp1])]
          rw [hp1, hre]
        · have hp1 : p.1 ≠ k := by simpa using hpk
          simp only [Function.comp]
          rw [if_neg hpk]
          simp only [foldTarget]
          by_cases hin : p.1 ∈ ks
          · rw [if_pos hin, if_pos (List.mem_cons_of_mem _ hin)]
          · rw [if_neg hin, if_neg (by simp [List.mem_cons, hp1, hin])]
      rw [← hcomp]
    · -- fresh rename: the entry moves to the end under the new key
      rw [if_neg hre]
      have hfr : ren k ∉ keysOf fs := (hfresh k (by simp)).resolve_left hre
      have hnk : hasKey fs (ren k) = false := by
        cases hh : hasKey fs (ren k) with
        | false => rfl
        | true => exact absurd (hasKey_iff_mem.mp hh) hfr
      have hfs1 : objDel (objSet fs (ren k) (getK fs k)) k =
          objDel fs k ++ [(ren k, getK fs k)] := by
        rw [objSet_of_not_hasKey hnk, objDel_append]
        congr 1
        simp only [objDel, List.filter_cons, List.filter_nil]
        rw [if_pos (by rw [bne_iff_ne]; intro hh; exact hre hh)]
      rw [hfs1]
      have hA : hasKey (objDel fs k) (ren k) = false := by
        cases hh : hasKey (objDel fs k) (ren k) with
        | false => rfl
        | true =>
          exact absurd (mem_keysOf_objDel.mp (hasKey_iff_mem.mp hh)).1 hfr
      have hv : getK (objDel fs k ++ [(ren k, getK fs k)]) (ren k) =
          getK fs k := getK_append_right hA
      rw [hv]
      have hfs2 : (if (getK fs k).isObjType = true then
            objSet (objDel fs k ++ [(ren k, getK fs k)]) (ren k)
              (keyTrF ren f' d (getK fs k))
            else objDel fs k ++ [(ren k, getK fs k)]) =
          objDel fs k ++ [(ren k, recVC ren d (getK fs k))] := by
        by_cases ho : (getK fs k).isObjType = true
        · rw [if_pos ho, objSet_append_last hA]
          have hT : keyTrF ren f' d (getK fs k) =
              recVC ren d (getK fs k) := by
            simp only [recVC, ho, if_pos]
            exact (keyTr_irr ren f').1 (needV (getK fs k)) d (getK fs k)
              (by omega) (Nat.le_refl _)
          rw [hT]
        · rw [if_neg ho]
          have hro : recVC ren d (getK fs k) = getK fs k := by
            simp only [recVC]
            rw [if_neg ho]
          rw [hro]
      rw [hfs2]
      have hkde : keysOf (objDel fs k ++ [(ren k, recVC ren d (getK fs k))]) =
          keysOf (objDel fs k) ++ [ren k] := by
        rw [keysOf_append]
        rfl
      have hnd2 : (keysOf (objDel fs k ++
          [(ren k, recVC ren d (getK fs k))])).Nodup := by
        rw [hkde, List.nodup_append]
        refine ⟨keysOf_objDel_nodup hnd, List.nodup_singleton _, ?_⟩
        intro a ha hb
        simp only [List.mem_singleton] at hb
        subst hb
        exact absurd (mem_keysOf_objDel.mp ha).1 hfr
      have hneed2 : needF (objDel fs k ++
          [(ren k, recVC ren d (getK fs k))]) ≤ needF fs := by
        rw [needF_append]
        have h2 := needF_objDel_le fs k
        have h3 : needF [(ren k, recVC ren d (getK fs k))] =
            needV (recVC ren d (getK fs k)) := by
          simp [needF]
        rw [h3]
        have h4 := recVC_needV_le ren d (getK fs k)
        omega
      have hperm2 := ih (objDel fs k ++ [(ren k, recVC ren d (getK fs k))])
        f' d hks.2 hnd2
        (fun k' hk' => by
          rw [hkde]
          refine List.mem_append.mpr (Or.inl ?_)
          refine mem_keysOf_objDel.mpr
            ⟨hsub k' (List.mem_cons_of_mem _ hk'), ?_⟩
          intro hh
          exact hks.1 (hh ▸ hk'))
        (fun k' hk' => by
          rcases hfresh k' (List.mem_cons_of_mem _ hk') with h1 | h2
          · exact Or.inl h1
          · refine Or.inr ?_
            rw [hkde]
            intro hh
            rcases List.mem_append.mp hh with h3 | h4
            · exact h2 (mem_keysOf_objDel.mp h3).1
            · simp only [List.mem_singleton] at h4
              have h5 := hinj k' (List.mem_cons_of_mem _ hk') k (by simp) h4
              exact hks.1 (h5 ▸ hk'))
        (fun a ha b hb => hinj a (List.mem_cons_of_mem _ ha) b
          (List.mem_cons_of_mem _ hb))
        (by omega)
      refine hperm2.trans ?_
      have hnkks : ren k ∉ ks :=
        fun hh => hfr (hsub (ren k) (List.mem_cons_of_mem _ hh))
      have hlast : foldTarget ren d ks
          ((ren k, recVC ren d (getK fs k)) : String × JVal) =
          (ren k, recVC ren d (getK fs k)) := by
        simp only [foldTarget]
        rw [if_neg (by simpa using hnkks)]
      have hsing : foldTarget ren d (k :: ks)
          ((k, getK fs k) : String × JVal) =
          (ren k, recVC ren d (getK fs k)) := by
        simp only [foldTarget]
        rw [if_pos (by simp)]
      have hmaps : (objDel fs k).map (foldTarget ren d (k :: ks)) =
          (objDel fs k).map (foldTarget ren d ks) := by
        refine List.map_congr_left (fun p hp => ?_)
        have hp1 : p.1 ≠ k := (mem_objDel.mp hp).2
        simp only [foldTarget]
        by_cases hin : p.1 ∈ ks
        · rw [if_pos (List.mem_cons_of_mem _ hin), if_pos hin]
        · rw [if_neg (by simp [List.mem_cons, hp1, hin]), if_neg hin]
      have hex := (perm_extract hnd hkfs).map (foldTarget ren d (k :: ks))
      rw [List.map_append] at hex
      rw [List.map_append]
      simp only [List.map_cons, List.map_nil] at hex ⊢
      rw [hlast, ← hmaps, ← hsing]
      exact hex.symm

/-! ## The transformer is the identity when every key is a fixed point -/

theorem objSet_getK_self {fs : List (String × JVal)} {k : String}
    (hn : (keysOf fs).Nodup) (h : hasKey fs k = true) :
    objSet fs k (getK fs k) = fs := by
  simp only [objSet, h, if_pos]
  refine (List.map_congr_left (fun p hp => ?_)).trans (List.map_id fs)
  by_cases hpk : (p.1 == k) = true
  · rw [if_pos hpk]
    simp only [beq_iff_eq] at hpk
    have hval : getK fs k = p.2 := by
      refine getK_eq_of_mem hn ?_
      obtain ⟨p1, p2⟩ := p
      simp only at hpk
      rw [← hpk]
      exact hp
    rw [hval]
    obtain ⟨p1, p2⟩ := p
    simp only at hpk
    rw [hpk]
    rfl
  · rw [if_neg hpk]
    rfl

theorem keyFs_noop (ren : String → String) (P : String → Prop) (n : Nat)
    (hfix : ∀ k, P k → ren k = k)
    (hval : ∀ f d v, needV v ≤ n → ValOk P v → keyTrF ren f d v = v) :
    ∀ (ks : List String) (f d : Nat) (fs : List (String × JVal)),
    (keysOf fs).Nodup → ValOkF P fs → needF fs ≤ n →
    keyFsF ren f d ks fs = fs := by
  intro ks
  induction ks with
  | nil =>
    intro f d fs _ _ _
    cases f with
    | zero => simp only [keyFsF]
    | succ f => simp only [keyFsF]
  | cons k ks ihk =>
    intro f d fs hnd hokf hneed
    cases f with
    | zero => simp only [keyFsF]
    | succ f =>
      simp only [keyFsF]
      by_cases hk : hasKey fs k
      · rw [if_pos hk]
        have hmem := getK_mem_of_hasKey fs k hk
        obtain ⟨hPk, hPv⟩ := ValOkF_mem hokf hmem
        have hre : ren k = k := hfix k hPk
        rw [if_pos hre, hre]
        by_cases ho : (getK fs k).isObjType = true
        · rw [if_pos ho]
          have hT : keyTrF ren f d (getK fs k) = getK fs k :=
            hval f d (getK fs k)
              (Nat.le_trans (getK_needV_le fs k hk) hneed) hPv
          rw [hT, objSet_getK_self hnd hk]
          exact ihk f d fs hnd hokf hneed
        · rw [if_neg ho]
          exact ihk f d fs hnd hokf hneed
      · rw [if_neg hk]
        exact ihk f d fs hnd hokf hneed

/-- The transformer does not change a value all of whose keys the rename
function fixes. -/
theorem keyTr_noop (ren : String → String) (P : String → Prop)
    (hfix : ∀ k, P k → ren k = k) :
    ∀ n, ∀ f d v, needV v ≤ n → ValOk P v → keyTrF ren f d v = v := by
  intro n
  induction n with
  | zero =>
    intro f d v hv _
    exact absurd (Nat.le_trans (needV_pos v) hv) (by omega)
  | succ n ih =>
    intro f d v hv hok
    cases f with
    | zero => simp only [keyTrF]
    | succ f =>
      cases d with
      | zero => simp only [keyTrF]
      | succ d =>
        cases v with
        | arr xs =>
          simp only [keyTrF]
          refine congrArg JVal.arr
            ((List.map_congr_left (fun x hx => ?_)).trans (List.map_id xs))
          simp only [needV] at hv
          have h1 := needV_le_needL hx
          exact ih f 10 x (by omega) (ValOkL_mem hok hx)
        | obj fs =>
          simp only [keyTrF]
          refine congrArg JVal.obj ?_
          simp only [needV] at hv
          obtain ⟨hnd, hokf⟩ := hok
          exact keyFs_noop ren P n hfix ih (keysOf fs) f d fs hnd hokf
            (by omega)
        | undef => simp only [keyTrF]
        | null => simp only [keyTrF]
        | bool b => simp only [keyTrF]
        | num m => simp only [keyTrF]
        | str s => simp only [keyTrF]

/-! ## Round trip of the two transformers -/

/-- Containers: arrays and objects. -/
def isCont : JVal → Bool
  | .arr _ => true
  | .obj _ => true
  | _ => false

theorem keyTrF_atom (ren : String → String) (f d : Nat) (v : JVal)
    (h : isCont v = false) : keyTrF ren f d v = v := by
  cases v with
  | arr xs => simp [isCont] at h
  | obj fs => simp [isCont] at h
  | undef => cases f <;> cases d <;> simp only [keyTrF]
  | null => cases f <;> cases d <;> simp only [keyTrF]
  | bool b => cases f <;> cases d <;> simp only [keyTrF]
  | num m => cases f <;> cases d <;> simp only [keyTrF]
  | str s => cases f <;> cases d <;> simp only [keyTrF]

theorem keyTr_isObjType (ren : String → String) (f d : Nat) (v : JVal) :
    (keyTrF ren f d v).isObjType = v.isObjType := by
  cases v with
  | arr xs =>
    cases f with
    | zero => rfl
    | succ f => cases d with
      | zero => rfl
      | succ d => simp only [keyTrF, JVal.isObjType]
  | obj fs =>
    cases f with
    | zero => rfl
    | succ f => cases d with
      | zero => rfl
      | succ d => simp only [keyTrF, JVal.isObjType]
  | undef => rw [keyTrF_atom ren f d JVal.undef rfl]
  | null => rw [keyTrF_atom ren f d JVal.null rfl]
  | bool b => rw [keyTrF_atom ren f d (JVal.bool b) rfl]
  | num m => rw [keyTrF_atom ren f d (JVal.num m) rfl]
  | str s => rw [keyTrF_atom ren f d (JVal.str s) rfl]

theorem deepEqB_refl_nonObj {v : JVal} (h : v.isObjType = false) :
    deepEqB v v = true := by
  cases v with
  | undef => rfl
  | null => simp [JVal.isObjType] at h
  | bool b => simp [deepEqB]
  | num m => simp [deepEqB]
  | str s => simp [deepEqB]
  | arr xs => simp [JVal.isObjType] at h
  | obj fs => simp [JVal.isObjType] at h

theorem needV_obj (fs : List (String × JVal)) :
    needV (.obj fs) = (fs.length + needF fs) + 1 := by
  simp only [needV]
  omega

theorem needV_arr (xs : List JVal) : needV (.arr xs) = needL xs + 1 := by
  simp only [needV]
  omega

/-- Round trip: renaming all keys with `ren1` (classes `P` → `Q`) and then
with `ren2` (a left inverse on `P`) gives back a value deep-equal to the
original. -/
theorem keyTr_roundtrip (ren1 ren2 : String → String) (P Q : String → Prop)
    (H1 : ∀ k, P k → ren1 k = k ∨ ∀ t, P t → ren1 k ≠ t)
    (H2 : ∀ k, P k → Q (ren1 k))
    (H3 : ∀ k, P k → ren2 (ren1 k) = k)
    (H4 : ∀ a b, P a → P b → ren1 a = ren1 b → a = b)
    (H5 : ∀ k, Q k → ren2 k = k ∨ ∀ t, Q t → ren2 k ≠ t)
    (H6 : ∀ a b, Q a → Q b → ren2 a = ren2 b → a = b) :
    ∀ n d v, needV v ≤ n → ValOk P v →
    deepEqB (keyTrF ren2 (needV (keyTrF ren1 (needV v) d v)) d
      (keyTrF ren1 (needV v) d v)) v = true := by
  intro n
  induction n with
  | zero =>
    intro d v hv _
    exact absurd (Nat.le_trans (needV_pos v) hv) (by omega)
  | succ n ih =>
    intro d v hv hok
    have hcomp : ∀ d' v', needV v' ≤ n → ValOk P v' →
        deepEqB (recVC ren2 d' (recVC ren1 d' v')) v' = true := by
      intro d' v' hv' hok'
      by_cases ho : v'.isObjType = true
      · have h1 : recVC ren1 d' v' = keyTrF ren1 (needV v') d' v' := by
          simp only [recVC, ho, if_pos]
        have h2 : (keyTrF ren1 (needV v') d' v').isObjType = true := by
          rw [keyTr_isObjType]
          exact ho
        rw [h1]
        have h3 : recVC ren2 d' (keyTrF ren1 (needV v') d' v') =
            keyTrF ren2 (needV (keyTrF ren1 (needV v') d' v')) d'
              (keyTrF ren1 (needV v') d' v') := by
          simp only [recVC, h2, if_pos]
        rw [h3]
        exact ih d' v' hv' hok'
      · have h1 : recVC ren1 d' v' = v' := by
          simp only [recVC]
          rw [if_neg ho]
        rw [h1]
        have h2 : recVC ren2 d' v' = v' := by
          simp only [recVC]
          rw [if_neg ho]
        rw [h2]
        refine deepEqB_refl_nonObj ?_
        cases hoo : v'.isObjType with
        | false => rfl
        | true => exact absurd hoo ho
    cases hc : isCont v with
    | false =>
      rw [keyTrF_atom ren1 _ _ v hc, keyTrF_atom ren2 _ _ v hc]
      cases v with
      | undef => rfl
      | null => rfl
      | bool b => simp [deepEqB]
      | num m => simp [deepEqB]
      | str s => simp [deepEqB]
      | arr xs => simp [isCont] at hc
      | obj fs => simp [isCont] at hc
    | true =>
      cases d with
      | zero =>
        have h0 : ∀ (r : String → String) (f : Nat) (w : JVal),
            keyTrF r f 0 w = w := by
          intro r f w
          cases f with
          | zero => simp only [keyTrF]
          | succ f => simp only [keyTrF]
        rw [h0, h0]
        exact deepEqB_refl (n + 1) v hv
          (ValOk_mono (fun _ _ => trivial) (n + 1) v hv hok)
      | succ d =>
        cases v with
        | arr xs =>
          rw [needV_arr] at hv ⊢
          simp only [keyTrF]
          simp only [ValOk] at hok
          rw [show needV (JVal.arr (xs.map (keyTrF ren1 (needL xs) 10))) =
              needL (xs.map (keyTrF ren1 (needL xs) 10)) + 1 from
            needV_arr _]
          simp only [keyTrF]
          simp only [deepEqB]
          refine deepEqA_of_forall (by simp) ?_
          intro i hx hy
          simp only [List.get_map]
          have hxmem : xs.get ⟨i, hy⟩ ∈ xs := List.get_mem xs i hy
          have hxle : needV (xs.get ⟨i, hy⟩) ≤ needL xs := needV_le_needL hxmem
          have e1 : keyTrF ren1 (needL xs) 10 (xs.get ⟨i, hy⟩) =
              keyTrF ren1 (needV (xs.get ⟨i, hy⟩)) 10 (xs.get ⟨i, hy⟩) :=
            (keyTr_irr ren1 (needL xs)).1 (needV (xs.get ⟨i, hy⟩)) 10 _
              hxle (Nat.le_refl _)
          have hymem : keyTrF ren1 (needL xs) 10 (xs.get ⟨i, hy⟩) ∈
              xs.map (keyTrF ren1 (needL xs) 10) :=
            List.mem_map.mpr ⟨xs.get ⟨i, hy⟩, hxmem, rfl⟩
          have hyle := needV_le_needL hymem
          rw [e1] at hyle
          rw [e1]
          have e2 : keyTrF ren2 (needL (xs.map (keyTrF ren1 (needL xs) 10)))
              10 (keyTrF ren1 (needV (xs.get ⟨i, hy⟩)) 10 (xs.get ⟨i, hy⟩)) =
              keyTrF ren2 (needV (keyTrF ren1 (needV (xs.get ⟨i, hy⟩)) 10
                (xs.get ⟨i, hy⟩))) 10
                (keyTrF ren1 (needV (xs.get ⟨i, hy⟩)) 10 (xs.get ⟨i, hy⟩)) :=
            (keyTr_irr ren2 _).1 _ 10 _ hyle (Nat.le_refl _)
          rw [e2]
          exact ih 10 (xs.get ⟨i, hy⟩) (by omega) (ValOkL_mem hok hxmem)
        | obj fs =>
          simp only [ValOk] at hok
          obtain ⟨hnd, hokf⟩ := hok
          rw [needV_obj] at hv ⊢
          simp only [keyTrF]
          have hkeysP : ∀ k' ∈ keysOf fs, P k' := by
            intro k' hk'
            obtain ⟨p, hp, rfl⟩ := List.mem_map.mp hk'
            exact (ValOkF_mem hokf hp).1
          have hfresh1 : ∀ k' ∈ keysOf fs, ren1 k' = k' ∨
              ren1 k' ∉ keysOf fs := by
            intro k' hk'
            rcases H1 k' (hkeysP k' hk') with h1 | h2
            · exact Or.inl h1
            · exact Or.inr (fun hh => h2 (ren1 k') (hkeysP _ hh) rfl)
          have hinj1 : ∀ a ∈ keysOf fs, ∀ b ∈ keysOf fs,
              ren1 a = ren1 b → a = b :=
            fun a ha b hb => H4 a b (hkeysP a ha) (hkeysP b hb)
          have hperm1 : (keyFsF ren1 (fs.length + needF fs) d (keysOf fs)
              fs).Perm (fs.map (fun p => (ren1 p.1, recVC ren1 d p.2))) := by
            refine (keyFs_perm ren1 (keysOf fs) fs (fs.length + needF fs) d
              hnd hnd (fun k hk => hk) hfresh1 hinj1
              (by rw [keysOf_length])).trans ?_
            have hm1 : fs.map (foldTarget ren1 d (keysOf fs)) =
                fs.map (fun p => (ren1 p.1, recVC ren1 d p.2)) := by
              refine List.map_congr_left (fun p hp => ?_)
              simp only [foldTarget]
              rw [if_pos (show p.1 ∈ keysOf fs from
                List.mem_map.mpr ⟨p, hp, rfl⟩)]
            rw [hm1]
          set F1 := keyFsF ren1 (fs.length + needF fs) d (keysOf fs) fs
            with hF1def
          set M1 := fs.map (fun p => (ren1 p.1, recVC ren1 d p.2)) with hM1def
          have hkeyperm : (keysOf F1).Perm (keysOf M1) := by
            simp only [keysOf]
            exact hperm1.map (·.1)
          have hkeysM1 : keysOf M1 = (keysOf fs).map ren1 := by
            rw [hM1def]
            simp only [keysOf, List.map_map]
            rfl
          have hM1nodup : (keysOf M1).Nodup := by
            rw [hkeysM1]
            exact List.Nodup.map_on
              (fun a ha b hb => hinj1 a ha b hb) hnd
          have hF1nodup : (keysOf F1).Nodup := hkeyperm.nodup_iff.mpr hM1nodup
          have hkeysQ : ∀ k' ∈ keysOf F1, Q k' := by
            intro k' hk'
            have hm : k' ∈ keysOf M1 := hkeyperm.mem_iff.mp hk'
            rw [hkeysM1] at hm
            obtain ⟨a, ha, rfl⟩ := List.mem_map.mp hm
            exact H2 a (hkeysP a ha)
          have hfresh2 : ∀ k' ∈ keysOf F1, ren2 k' = k' ∨
              ren2 k' ∉ keysOf F1 := by
            intro k' hk'
            rcases H5 k' (hkeysQ k' hk') with h1 | h2
            · exact Or.inl h1
            · exact Or.inr (fun hh => h2 (ren2 k') (hkeysQ _ hh) rfl)
          have hinj2 : ∀ a ∈ keysOf F1, ∀ b ∈ keysOf F1,
              ren2 a = ren2 b → a = b :=
            fun a ha b hb => H6 a b (hkeysQ a ha) (hkeysQ b hb)
          rw [show needV (JVal.obj F1) = (F1.length + needF F1) + 1 from
            needV_obj _]
          simp only [keyTrF]
          have hperm2 : (keyFsF ren2 (F1.length + needF F1) d (keysOf F1)
              F1).Perm (F1.map (foldTarget ren2 d (keysOf F1))) :=
            keyFs_perm ren2 (keysOf F1) F1 _ d hF1nodup hF1nodup
              (fun k hk => hk) hfresh2 hinj2 (by rw [keysOf_length])
          have hperm3 : (F1.map (foldTarget ren2 d (keysOf F1))).Perm
              (fs.map (fun p => (p.1, recVC ren2 d (recVC ren1 d p.2)))) := by
            refine (hperm1.map (foldTarget ren2 d (keysOf F1))).trans ?_
            have hmm : M1.map (foldTarget ren2 d (keysOf F1)) =
                fs.map (fun p => (p.1, recVC ren2 d (recVC ren1 d p.2))) := by
              rw [hM1def, List.map_map]
              refine List.map_congr_left (fun p hp => ?_)
              simp only [Function.comp, foldTarget]
              rw [if_pos (show ((ren1 p.1, recVC ren1 d p.2) :
                  String × JVal).1 ∈ keysOf F1 from hkeyperm.mem_iff.mpr
                (by
                  rw [hkeysM1]
                  exact List.mem_map.mpr
                    ⟨p.1, List.mem_map.mpr ⟨p, hp, rfl⟩, rfl⟩))]
              rw [show ren2 ((ren1 p.1, recVC ren1 d p.2) :
                  String × JVal).1 = p.1 from
                H3 p.1 (hkeysP p.1 (List.mem_map.mpr ⟨p, hp, rfl⟩))]
            rw [hmm]
          have hperm4 := hperm2.trans hperm3
          simp only [deepEqB, Bool.and_eq_true]
          constructor
          · have hlen := hperm4.length_eq
            rw [List.length_map] at hlen
            rw [hlen]
            simp
          · refine deepEqO_of_mem hnd (fun r hr => ?_)
            have hrmem : r ∈ fs.map
                (fun p => (p.1, recVC ren2 d (recVC ren1 d p.2))) :=
              hperm4.mem_iff.mp hr
            obtain ⟨p, hp, rfl⟩ := List.mem_map.mp hrmem
            refine ⟨p, hp, rfl, ?_⟩
            have h1 := needV_le_needF hp
            exact hcomp d p.2 (by omega) (ValOkF_mem hokf hp).2
        | undef => simp [isCont] at hc
        | null => simp [isCont] at hc
        | bool b => simp [isCont] at hc
        | num m => simp [isCont] at hc
        | str s => simp [isCont] at hc

/-! ## Specialisations to the two converters -/

/-- Values whose keys are all restricted well-formed snake_case. -/
def SnakeOkR (v : JVal) : Prop := ValOk SnakeKeyR v

/-- Values whose keys are all canonical camelCase. -/
def CamelOk (v : JVal) : Prop := ValOk CamelKey v

/-- Values whose keys are all well-formed snake_case (no restriction). -/
def SnakeOkP (v : JVal) : Prop := ValOk SnakeKey v

theorem camel_fix_or_freshR {k : String} (h : SnakeKeyR k) :
    camelLodash k = k ∨ ∀ t, SnakeKeyR t → camelLodash k ≠ t := by
  rcases camel_fix_or_fresh h with h1 | h2
  · exact Or.inl h1
  · exact Or.inr (fun t ht => h2 t ht.toSnakeKey)

/-- snake → camel → snake round trip, lifted to whole values (any matching
depth budget `d ≠ 0`; in particular the default `10`). -/
theorem roundtrip_snake_val (d : Nat) (v : JVal) (hd : d ≠ 0)
    (h : SnakeOkR v) : deepEqB (humpToSnake (snakeToHump v d) d) v = true := by
  simp only [snakeToHump, humpToSnake, if_neg hd]
  exact keyTr_roundtrip camelLodash snakeLodash SnakeKeyR CamelKey
    (fun k hk => camel_fix_or_freshR hk)
    (fun k hk => (snake_camel_snake hk).2)
    (fun k hk => (snake_camel_snake hk).1)
    (fun a b ha hb => camel_inj_on_snakeR ha hb)
    (fun k hk => snake_fix_or_fresh hk)
    (fun a b ha hb => snake_inj_on_camel ha hb)
    (needV v) d v (Nat.le_refl _) h

/-- camel → snake → camel round trip, lifted to whole values. -/
theorem roundtrip_camel_val (d : Nat) (v : JVal) (hd : d ≠ 0)
    (h : CamelOk v) : deepEqB (snakeToHump (humpToSnake v d) d) v = true := by
  simp only [snakeToHump, humpToSnake, if_neg hd]
  exact keyTr_roundtrip snakeLodash camelLodash CamelKey SnakeKeyR
    (fun k hk => snake_fix_or_fresh hk)
    (fun k hk => (camel_snake_camel hk).2)
    (fun k hk => (camel_snake_camel hk).1)
    (fun a b ha hb => snake_inj_on_camel ha hb)
    (fun k hk => camel_fix_or_freshR hk)
    (fun a b ha hb => camel_inj_on_snakeR ha hb)
    (needV v) d v (Nat.le_refl _) h

/-- `snakeToHump` is a (strict) no-op on values already in camelCase. -/
theorem noop_camel_val (d : Nat) (v : JVal) (hd : d ≠ 0) (h : CamelOk v) :
    snakeToHump v d = v := by
  simp only [snakeToHump, if_neg hd]
  exact keyTr_noop camelLodash CamelKey (fun k hk => camelLodash_id hk)
    (needV v) (needV v) d v (Nat.le_refl _) h

/-- `humpToSnake` is a (strict) no-op on values already in snake_case. -/
theorem noop_snake_val (d : Nat) (v : JVal) (hd : d ≠ 0) (h : SnakeOkP v) :
    humpToSnake v d = v := by
  simp only [humpToSnake, if_neg hd]
  exact keyTr_noop snakeLodash SnakeKey (fun k hk => snakeLodash_id hk)
    (needV v) (needV v) d v (Nat.le_refl _) h

/-! ## The request pipeline (`HttpFetchService` in `src/http.service.ts`) -/

/-- `ParameterStyle`.  Modelled from the spec: `http.interface.ts` is not
among the sources; the spec (§3) gives the enum
`{ NONE, CAMEL_TO_SNAKE, SNAKE_TO_CAMEL }`, default `NONE`.  An absent
`parameterStyle` behaves as `NONE` (both hit the `default`/final `else`
branches in the code), so `NONE` also models absence. -/
inductive ParameterStyle where
  | NONE
  | CAMEL_TO_SNAKE
  | SNAKE_TO_CAMEL
  deriving Repr, DecidableEq

/-- The service-wide option fields `request` reads.  `protocol = none`
models an absent field (the code defaults it to `"http"`). -/
structure HttpOption where
  protocol : Option String
  parameterStyle : ParameterStyle

/-- `error.response` of a failed transport call: the failed response's
`status` and parsed `data` body. -/
structure ErrResponse where
  status : Int
  data : JVal

/-- Outcome of the single transport call
(`this.httpService.axiosRef.request`): success with `{status, data}`, or a
thrown error `{message, response?}`. -/
inductive Transport where
  | success (status : Int) (body : JVal)
  | failure (message : String) (response : Option ErrResponse)

/-- `ResponseSchema` (`http.interface.ts`, modelled from the spec §3): the
normalized `{code, msg, data, status}` envelope.  `code`/`msg`/`data` are
JS values exactly as the code produces them. -/
structure ResponseSchema where
  code : JVal
  msg : JVal
  data : JVal
  status : Int
  deriving Repr

/-- How a `request` call ends: a returned envelope, a thrown
`HttpRequestApiException { msg }` (`http.exception.ts`, modelled from the
spec §6), or an uncaught `TypeError` from reading a property of
`undefined`. -/
inductive ReqResult where
  | ok (r : ResponseSchema)
  | apiExn (msg : String)
  | typeError
  deriving Repr

/-- Per-call config as a JS object (ordered association list), so the verb
wrappers' `{...config, method: 'post'}` spread is modelled faithfully.  An
absent / `undefined` config is the empty list (the code's
`config = config || {}`). -/
abbrev Config := List (String × JVal)

/-- Everything observable about one `request` call: the url handed to the
transport, the per-call config after the outgoing transform, and how the
call ends. -/
structure RequestOut where
  url : String
  cfg : Config
  result : ReqResult

/-- `url.indexOf(protocol) === 0`: `protocol` is a literal character
prefix of `url`, computed on the character lists. -/
def strPrefix : List Char → List Char → Bool
  | [], _ => true
  | _ :: _, [] => false
  | a :: as, b :: bs => if a = b then strPrefix as bs else false

/-- `HttpFetchService.request` (src/http.service.ts, lines 62–136), with
the transport's behaviour supplied as the `tr` argument.

* URL: `if (url.indexOf(protocol) !== 0) url = protocol + "://" + url` —
  the index is `0` exactly when `protocol` is a literal prefix of `url`.
* Outgoing transform: for `CAMEL_TO_SNAKE`, `config.data` and then
  `config.params` are rewritten with `humpToSnake` when truthy;
  `SNAKE_TO_CAMEL` symmetrically; `NONE`/absent leaves the config alone.
* Success: `const data = resp.data; let content = data.data` — reading
  `.data` of a `null`/`undefined` body throws a `TypeError`.  Otherwise the
  envelope is `{ code: data.code || 0, msg: data.msg || '', data: content,
  status: resp.status }`, where `content` is the extracted `data.data`
  transformed in the direction opposite to the outgoing one (absent payload
  defaulted to `{}` first: `snakeToHump(data.data || {})`).
* Failure: if `err.response` is `undefined`, `err.response.data` throws a
  `TypeError`.  Otherwise a falsy `err.response.data` is replaced by `{}`;
  if the body has neither a truthy `code` nor a truthy `data`, a
  `HttpRequestApiException` carrying `err.message` is thrown.  Otherwise
  the code builds the envelope `{ ..., status: resp.status }` — but `resp`
  is the variable assigned by the `try` block's transport call, which threw
  before assigning, so `resp` is `undefined` and `resp.status` throws a
  `TypeError`. -/
def request (opt : HttpOption) (url : String) (config : Config)
    (tr : Transport) : RequestOut :=
  let protocol := opt.protocol.getD "http"
  let url1 := if strPrefix protocol.data url.data then url
    else protocol ++ "://" ++ url
  let cfg1 :=
    match opt.parameterStyle with
    | .CAMEL_TO_SNAKE =>
      let c1 := if (getK config "data").truthy then
        objSet config "data" (humpToSnake (getK config "data") 10)
        else config
      if (getK c1 "params").truthy then
        objSet c1 "params" (humpToSnake (getK c1 "params") 10)
        else c1
    | .SNAKE_TO_CAMEL =>
      let c1 := if (getK config "data").truthy then
        objSet config "data" (snakeToHump (getK config "data") 10)
        else config
      if (getK c1 "params").truthy then
        objSet c1 "params" (snakeToHump (getK c1 "params") 10)
        else c1
    | .NONE => config
  let result :=
    match tr with
    | .success status body =>
      match body.jsGet "data" with
      | .error _ => ReqResult.typeError
      | .ok content0 =>
        let content :=
          match opt.parameterStyle with
          | .CAMEL_TO_SNAKE => snakeToHump (content0.jsOr (.obj [])) 10
          | .SNAKE_TO_CAMEL => humpToSnake (content0.jsOr (.obj [])) 10
          | .NONE => content0
        ReqResult.ok
          { code := (body.getF "code").jsOr (.num 0)
            msg := (body.getF "msg").jsOr (.str "")
            data := content
            status := status }
    | .failure message response =>
      match response with
      | none => ReqResult.typeError
      | some r =>
        let d := if r.data.truthy then r.data else .obj []
        if !(d.getF "code").truthy && !(d.getF "data").truthy then
          ReqResult.apiExn message
        else
          ReqResult.typeError
  { url := url1, cfg := cfg1, result := result }

/-- The verb wrappers (src/http.service.ts, lines 138–178):
`this.request(url, {...config, method: '<verb>'})`.  The object spread
followed by `method:` assigns in place when `config` already has a
`method` key and appends otherwise — exactly `objSet`. -/
def post (opt : HttpOption) (url : String) (config : Config)
    (tr : Transport) : RequestOut :=
  request opt url (objSet config "method" (.str "post")) tr

def get (opt : HttpOption) (url : String) (config : Config)
    (tr : Transport) : RequestOut :=
  request opt url (objSet config "method" (.str "get")) tr

def put (opt : HttpOption) (url : String) (config : Config)
    (tr : Transport) : RequestOut :=
  request opt url (objSet config "method" (.str "put")) tr

def delete (opt : HttpOption) (url : String) (config : Config)
    (tr : Transport) : RequestOut :=
  request opt url (objSet config "method" (.str "delete")) tr

def patch (opt : HttpOption) (url : String) (config : Config)
    (tr : Transport) : RequestOut :=
  request opt url (objSet config "method" (.str "patch")) tr

def head (opt : HttpOption) (url : String) (config : Config)
    (tr : Transport) : RequestOut :=
  request opt url (objSet config "method" (.str "head")) tr

example : (request ⟨some "https", .NONE⟩ "service.internal/x" []
    (.success 200 (.obj []))).url = "https://service.internal/x" := rfl
example : (request ⟨none, .CAMEL_TO_SNAKE⟩ "api/x" []
    (.success 200 (.obj [("code", .num 0), ("msg", .str "ok"),
      ("data", .obj [("user_id", .num 5)])]))).result =
    .ok ⟨.num 0, .str "ok", .obj [("userId", .num 5)], 200⟩ := rfl
example : (request ⟨none, .NONE⟩ "u" []
    (.failure "boom" (some ⟨404, .obj [("code", .num 404),
      ("msg", .str "not found")]⟩))).result = .typeError := rfl
example : (request ⟨none, .NONE⟩ "u" []
    (.failure "boom" (some ⟨500, .obj []⟩))).result = .apiExn "boom" := rfl
example : (request ⟨none, .NONE⟩ "u" []
    (.failure "boom" none)).result = .typeError := rfl

/-! ## Further object-operation lemmas -/

theorem getK_of_not_hasKey {fs : List (String × JVal)} {k : String}
    (h : hasKey fs k = false) : getK fs k = JVal.undef := by
  simp only [getK]
  have h1 : fs.find? (fun p => p.1 == k) = none := by
    rw [List.find?_eq_none]
    intro p hp hpk
    have hcon : hasKey fs k = true := by
      simp only [hasKey]
      exact List.any_eq_true.mpr ⟨p, hp, hpk⟩
    rw [h] at hcon
    cases hcon
  rw [h1]
  rfl

theorem getK_map_upd (fs : List (String × JVal)) (k : String) (v : JVal)
    (h : hasKey fs k = true) :
    getK (fs.map (fun p => if p.1 == k then (k, v) else p)) k = v := by
  induction fs with
  | nil => simp [hasKey] at h
  | cons q fs ih =>
    by_cases hq : (q.1 == k) = true
    · simp only [List.map_cons]
      rw [if_pos hq]
      simp only [getK, List.find?_cons, beq_self_eq_true]
      rfl
    · have hqf : (q.1 == k) = false := Bool.eq_false_iff.mpr hq
      simp only [List.map_cons]
      rw [if_neg hq]
      simp only [getK] at ih ⊢
      simp only [List.find?_cons, hqf]
      apply ih
      simp only [hasKey, List.any_cons, hqf, Bool.false_or] at h
      exact h

theorem getK_map_upd_ne (fs : List (String × JVal)) {k k' : String}
    (v : JVal) (h : k' ≠ k) :
    getK (fs.map (fun p => if p.1 == k then (k, v) else p)) k' = getK fs k' := by
  induction fs with
  | nil => rfl
  | cons q fs ih =>
    simp only [List.map_cons]
    by_cases hq : (q.1 == k) = true
    · rw [if_pos hq]
      have h1 : (((k, v) : String × JVal).1 == k') = false := by
        simp only [beq_eq_false_iff_ne, ne_eq]
        exact fun hh => h hh.symm
      have h2 : (q.1 == k') = false := by
        simp only [beq_iff_eq] at hq
        simp only [beq_eq_false_iff_ne, ne_eq, hq]
        exact fun hh => h hh.symm
      simp only [getK] at ih ⊢
      simp only [List.find?_cons, h1, h2]
      exact ih
    · rw [if_neg hq]
      simp only [getK] at ih ⊢
      by_cases hq' : (q.1 == k') = true
      · simp only [List.find?_cons, hq']
      · have hq'f : (q.1 == k') = false := Bool.eq_false_iff.mpr hq'
        simp only [List.find?_cons, hq'f]
        exact ih

theorem getK_objSet_self (fs : List (String × JVal)) (k : String) (v : JVal) :
    getK (objSet fs k v) k = v := by
  simp only [objSet]
  by_cases h : hasKey fs k
  · rw [if_pos h]
    exact getK_map_upd fs k v h
  · rw [if_neg h]
    simp only [getK]
    rw [List.find?_append]
    have h1 : fs.find? (fun p => p.1 == k) = none := by
      rw [List.find?_eq_none]
      intro p hp hpk
      exact h (List.any_eq_true.mpr ⟨p, hp, hpk⟩)
    rw [h1]
    simp [List.find?]

theorem getK_objSet_ne (fs : List (String × JVal)) {k k' : String}
    (v : JVal) (h : k' ≠ k) : getK (objSet fs k v) k' = getK fs k' := by
  simp only [objSet]
  by_cases hk : hasKey fs k
  · rw [if_pos hk]
    exact getK_map_upd_ne fs v h
  · rw [if_neg hk]
    simp only [getK]
    rw [List.find?_append]
    have h2 : List.find? (fun p => p.1 == k') [(k, v)] = none := by
      simp only [List.find?_cons]
      have : (((k, v) : String × JVal).1 == k') = false := by
        simp only [beq_eq_false_iff_ne, ne_eq]
        exact fun hh => h hh.symm
      simp [this]
    rw [h2]
    cases fs.find? (fun p => p.1 == k') <;> rfl

/-! ## Concrete key-predicate instances (shared by several witnesses) -/

theorem camelKey_aB : CamelKey "aB" :=
  ⟨['a'], [['b']], ⟨by decide, by decide⟩,
    by intro w hw; simp at hw; subst hw; exact ⟨by decide, by decide⟩,
    List.chain'_singleton _, by decide⟩

theorem snakeKeyR_ab : SnakeKeyR "a_b" :=
  ⟨[['a'], ['b']],
    by intro w hw; simp at hw
       rcases hw with h | h <;> subst h <;> exact ⟨by decide, by decide⟩,
    by decide, List.chain'_singleton _, by decide⟩

theorem camelOk_ex : CamelOk (.obj [("aB", .num 1)]) :=
  ⟨by decide, camelKey_aB, trivial, trivial⟩

theorem snakeOkR_ex : SnakeOkR (.obj [("a_b", .num 1)]) :=
  ⟨by decide, snakeKeyR_ab, trivial, trivial⟩

theorem snakeOkP_ex : SnakeOkP (.obj [("a_b", .num 1)]) :=
  ValOk_mono (fun _ h => h.toSnakeKey) (needV (.obj [("a_b", .num 1)]))
    (.obj [("a_b", .num 1)]) (Nat.le_refl _) snakeOkR_ex

/-! ## The heap model (for the frame property of the transformers)

`http.helper.ts` mutates objects in place (`target[newKey] = target[key];
delete target[key]`) after taking a `_.cloneDeep` of the input.  To state
that the caller's input is never mutated, the heap is explicit: addresses,
a store mapping addresses to array/object nodes, stored values that are
either primitives or references, a fuelled `cloneDeep`, the in-place key
rewriter, and a fuelled readback from the heap to pure `JVal`s. -/

abbrev Addr := Nat

inductive SV where
  | prim (v : JVal)
  | ref (a : Addr)

inductive HNode where
  | harr (xs : List SV)
  | hobj (fs : List (String × SV))

structure Store where
  mem : List (Addr × HNode)
  next : Addr

def lookupS (s : Store) (a : Addr) : Option HNode :=
  (s.mem.find? (fun p => p.1 == a)).map (·.2)

def setS (s : Store) (a : Addr) (n : HNode) : Store :=
  ⟨s.mem.map (fun p => if p.1 == a then (a, n) else p), s.next⟩

def allocS (s : Store) (n : HNode) : Store × Addr :=
  (⟨s.mem ++ [(s.next, n)], s.next + 1⟩, s.next)

mutual
def cloneV : Nat → Store → SV → Store × SV
  | 0, s, _ => (s, .prim .undef)
  | _ + 1, s, .prim v => (s, .prim v)
  | f + 1, s, .ref a =>
    match lookupS s a with
    | none => (s, .ref a)
    | some (.harr xs) =>
      let r1 := cloneL f s xs
      let r2 := allocS r1.1 (.harr r1.2)
      (r2.1, .ref r2.2)
    | some (.hobj fs) =>
      let r1 := cloneF f s fs
      let r2 := allocS r1.1 (.hobj r1.2)
      (r2.1, .ref r2.2)
def cloneL : Nat → Store → List SV → Store × List SV
  | 0, s, _ => (s, [])
  | _ + 1, s, [] => (s, [])
  | f + 1, s, x :: xs =>
    let r1 := cloneV f s x
    let r2 := cloneL f r1.1 xs
    (r2.1, r1.2 :: r2.2)
def cloneF : Nat → Store → List (String × SV) → Store × List (String × SV)
  | 0, s, _ => (s, [])
  | _ + 1, s, [] => (s, [])
  | f + 1, s, p :: fs =>
    let r1 := cloneV f s p.2
    let r2 := cloneF f r1.1 fs
    (r2.1, (p.1, r1.2) :: r2.2)
end

def hasKeyS (fs : List (String × SV)) (k : String) : Bool :=
  fs.any (fun p => p.1 == k)

def getKS (fs : List (String × SV)) (k : String) : SV :=
  (fs.find? (fun p => p.1 == k)).elim (.prim .undef) (·.2)

def objSetS (fs : List (String × SV)) (k : String) (v : SV) :
    List (String × SV) :=
  if hasKeyS fs k then fs.map (fun p => if p.1 == k then (k, v) else p)
  else fs ++ [(k, v)]

def objDelS (fs : List (String × SV)) (k : String) : List (String × SV) :=
  fs.filter (fun p => p.1 != k)

def SV.isObjTypeS : SV → Bool
  | .ref _ => true
  | .prim .null => true
  | .prim _ => false

mutual
def keyTrS (ren : String → String) : Nat → Nat → SV → Store → Store
  | 0, _, _, s => s
  | _ + 1, 0, _, s => s
  | f + 1, d + 1, .ref a, s =>
    match lookupS s a with
    | none => s
    | some (.harr xs) => keyLsS ren f xs s
    | some (.hobj fs) => keyFsS ren f d a (fs.map (·.1)) s
  | _ + 1, _ + 1, .prim _, s => s
def keyLsS (ren : String → String) : Nat → List SV → Store → Store
  | 0, _, s => s
  | _ + 1, [], s => s
  | f + 1, x :: xs, s => keyLsS ren f xs (keyTrS ren f 10 x s)
def keyFsS (ren : String → String) :
    Nat → Nat → Addr → List String → Store → Store
  | 0, _, _, _, s => s
  | _ + 1, _, _, [], s => s
  | f + 1, d, a, k :: ks, s =>
    match lookupS s a with
    | some (.hobj fs) =>
      if hasKeyS fs k then
        if ren k = k then
          let v := getKS fs k
          let s2 := if v.isObjTypeS then keyTrS ren f d v s else s
          keyFsS ren f d a ks s2
        else
          let fs1 := objDelS (objSetS fs (ren k) (getKS fs k)) k
          let s1 := setS s a (.hobj fs1)
          let v := getKS fs1 (ren k)
          let s2 := if v.isObjTypeS then keyTrS ren f d v s1 else s1
          keyFsS ren f d a ks s2
      else
        keyFsS ren f d a ks s
    | _ => s
end

mutual
def readV : Nat → Store → SV → JVal
  | 0, _, _ => .undef
  | _ + 1, _, .prim v => v
  | f + 1, s, .ref a =>
    match lookupS s a with
    | none => .undef
    | some (.harr xs) => .arr (readL f s xs)
    | some (.hobj fs) => .obj (readF f s fs)
def readL : Nat → Store → List SV → List JVal
  | 0, _, _ => []
  | _ + 1, _, [] => []
  | f + 1, s, x :: xs => readV f s x :: readL f s xs
def readF : Nat → Store → List (String × SV) → List (String × JVal)
  | 0, _, _ => []
  | _ + 1, _, [] => []
  | f + 1, s, p :: fs => (p.1, readV f s p.2) :: readF f s fs
end

def nodeVals : HNode → List SV
  | .harr xs => xs
  | .hobj fs => fs.map (·.2)

def svBelow (n : Nat) : SV → Bool
  | .prim _ => true
  | .ref a => a < n

def WFStore (s : Store) : Prop :=
  ∀ p ∈ s.mem, p.1 < s.next ∧ ∀ v ∈ nodeVals p.2, svBelow s.next v = true

def SVSafe (n0 : Nat) (s : Store) : SV → Prop
  | .prim _ => True
  | .ref a => n0 ≤ a ∨ lookupS s a = none

def ClosedS (s : Store) (n0 : Nat) : Prop :=
  ∀ a nd, lookupS s a = some nd → n0 ≤ a → ∀ v ∈ nodeVals nd, SVSafe n0 s v

-- concrete sanity
def s0 : Store := ⟨[(0, .hobj [("k", .prim (.num 1))])], 1⟩
example : readV 5 s0 (.ref 0) = .obj [("k", .num 1)] := rfl
example : (cloneV 5 s0 (.ref 0)).2 = .ref 1 := rfl
example : lookupS (cloneV 5 s0 (.ref 0)).1 1 = some (.hobj [("k", .prim (.num 1))]) := rfl

/-! basic lookup lemmas -/

theorem lookupS_mem {s : Store} {a : Addr} {nd : HNode}
    (h : lookupS s a = some nd) : (a, nd) ∈ s.mem := by
  simp only [lookupS, Option.map_eq_some'] at h
  obtain ⟨p, hp, hnd⟩ := h
  have hmem := List.mem_of_find?_eq_some hp
  have hkey := List.find?_some hp
  simp only [beq_iff_eq] at hkey
  have : p = (a, nd) := by
    cases p
    simp_all
  rwa [this] at hmem

theorem lookupS_append_lt {mem ts : List (Addr × HNode)} {n n' : Addr}
    {n0 a : Nat} (hts : ∀ p ∈ ts, n0 ≤ p.1) (ha : a < n0) :
    lookupS ⟨mem ++ ts, n'⟩ a = lookupS ⟨mem, n⟩ a := by
  simp only [lookupS, List.find?_append]
  have h2 : ts.find? (fun p => p.1 == a) = none := by
    rw [List.find?_eq_none]
    intro p hp hpa
    simp only [beq_iff_eq] at hpa
    have := hts p hp
    omega
  rw [h2]
  cases mem.find? (fun p => p.1 == a) <;> rfl

theorem lookupS_append_some {mem ts : List (Addr × HNode)} {n n' : Addr}
    {a : Nat} {nd : HNode} (h : lookupS ⟨mem, n⟩ a = some nd) :
    lookupS ⟨mem ++ ts, n'⟩ a = some nd := by
  simp only [lookupS, Option.map_eq_some'] at h ⊢
  obtain ⟨p, hp, hnd⟩ := h
  exact ⟨p, by rw [List.find?_append, hp]; rfl, hnd⟩

theorem lookupS_append_cases {mem ts : List (Addr × HNode)} {n n' : Addr}
    {a : Nat} {nd : HNode} (h : lookupS ⟨mem ++ ts, n'⟩ a = some nd) :
    lookupS ⟨mem, n⟩ a = some nd ∨ (a, nd) ∈ ts := by
  simp only [lookupS, Option.map_eq_some'] at h
  obtain ⟨p, hp, hnd⟩ := h
  rw [List.find?_append] at hp
  cases hm : mem.find? (fun p => p.1 == a) with
  | some q =>
    rw [hm] at hp
    simp only [Option.or_some] at hp
    left
    simp only [lookupS, hm]
    cases hp
    simp [hnd]
  | none =>
    rw [hm] at hp
    simp only [Option.none_or] at hp  -- none.or
    right
    have hmem := List.mem_of_find?_eq_some hp
    have hkey := List.find?_some hp
    simp only [beq_iff_eq] at hkey
    have : p = (a, nd) := by
      cases p
      simp_all
    rwa [this] at hmem

/-! setS and domain lemmas -/

theorem setS_next (s : Store) (a : Addr) (nd : HNode) :
    (setS s a nd).next = s.next := rfl

theorem setS_keys (s : Store) (a : Addr) (nd : HNode) :
    (setS s a nd).mem.map (·.1) = s.mem.map (·.1) := by
  simp only [setS, List.map_map]
  refine List.map_congr_left (fun p hp => ?_)
  by_cases h : (p.1 == a) = true
  · simp only [Function.comp, if_pos h]
    simp only [beq_iff_eq] at h
    exact h.symm
  · simp only [Function.comp, if_neg h]

theorem lookupS_setS_ne {s : Store} {a b : Addr} (nd : HNode) (h : b ≠ a) :
    lookupS (setS s a nd) b = lookupS s b := by
  simp only [lookupS, setS]
  induction s.mem with
  | nil => rfl
  | cons p ps ih =>
    simp only [List.map_cons]
    by_cases hp : (p.1 == a) = true
    · rw [if_pos hp]
      have h1 : ((a, nd).1 == b) = false := by
        simp only [beq_eq_false_iff_ne, ne_eq]
        exact fun hh => h hh.symm
      have h2 : (p.1 == b) = false := by
        simp only [beq_iff_eq] at hp
        simp only [beq_eq_false_iff_ne, ne_eq, hp]
        exact fun hh => h hh.symm
      simp only [List.find?_cons, h1, h2]
      exact ih
    · rw [if_neg hp]
      by_cases hb : (p.1 == b) = true
      · simp only [List.find?_cons, hb]
      · have hbf : (p.1 == b) = false := Bool.eq_false_iff.mpr hb
        simp only [List.find?_cons, hbf]
        exact ih

theorem find?_map_upd {l : List (Addr × HNode)} {a : Addr} (nd : HNode)
    (h : (l.find? (fun q => q.1 == a)).isSome = true) :
    (l.map (fun p => if p.1 == a then (a, nd) else p)).find?
      (fun q => q.1 == a) = some (a, nd) := by
  induction l with
  | nil => simp at h
  | cons q qs ih =>
    by_cases hq : (q.1 == a) = true
    · simp only [List.map_cons, if_pos hq, List.find?_cons, beq_self_eq_true]
    · have hqf : (q.1 == a) = false := Bool.eq_false_iff.mpr hq
      simp only [List.find?_cons, hqf] at h
      rw [List.map_cons, if_neg hq]
      simp only [List.find?_cons, hqf]
      exact ih h

theorem lookupS_setS_self {s : Store} {a : Addr} {x : HNode} (nd : HNode)
    (h : lookupS s a = some x) : lookupS (setS s a nd) a = some nd := by
  have hsome : (s.mem.find? (fun q => q.1 == a)).isSome = true := by
    simp only [lookupS, Option.map_eq_some'] at h
    obtain ⟨p, hp, _⟩ := h
    simp [hp]
  simp only [lookupS, setS]
  rw [find?_map_upd nd hsome]
  rfl

theorem lookupS_setS_a_none {s : Store} {a : Addr} (nd : HNode)
    (h : lookupS s a = none) : lookupS (setS s a nd) a = none := by
  simp only [lookupS, Option.map_eq_none'] at h ⊢
  simp only [setS]
  rw [List.find?_eq_none] at h ⊢
  intro p hp
  obtain ⟨q, hq, hqp⟩ := List.mem_map.mp hp
  by_cases hqa : (q.1 == a) = true
  · exact absurd hqa (by simp [h q hq])
  · rw [if_neg hqa] at hqp
    subst hqp
    exact fun hh => absurd hh (by simp [h q hq])

/-! domain equality -/

def domEq (s s' : Store) : Prop :=
  s'.mem.map (·.1) = s.mem.map (·.1) ∧ s'.next = s.next

theorem domEq_refl (s : Store) : domEq s s := ⟨rfl, rfl⟩

theorem domEq_trans {s t u : Store} (h1 : domEq s t) (h2 : domEq t u) :
    domEq s u := ⟨h2.1.trans h1.1, h2.2.trans h1.2⟩

theorem domEq_setS (s : Store) (a : Addr) (nd : HNode) :
    domEq s (setS s a nd) := ⟨setS_keys s a nd, rfl⟩

theorem lookupS_none_iff {s : Store} {b : Addr} :
    lookupS s b = none ↔ (s.mem.map (·.1)).all (fun k => k != b) = true := by
  simp only [lookupS, Option.map_eq_none', List.find?_eq_none, List.all_eq_true,
    List.mem_map, bne_iff_ne]
  constructor
  · rintro h k ⟨p, hp, rfl⟩
    have := h p hp
    simp only [beq_iff_eq] at this
    exact this
  · intro h p hp
    have := h p.1 ⟨p, hp, rfl⟩
    simp [this]

theorem lookupS_none_of_domEq {s s' : Store} {b : Addr} (h : domEq s s')
    (hb : lookupS s b = none) : lookupS s' b = none := by
  rw [lookupS_none_iff] at hb ⊢
  rw [h.1]
  exact hb

theorem SVSafe_of_domEq {n0 : Nat} {s s' : Store} {v : SV} (h : domEq s s')
    (hv : SVSafe n0 s v) : SVSafe n0 s' v := by
  cases v with
  | prim _ => trivial
  | ref a =>
    rcases hv with h1 | h2
    · exact Or.inl h1
    · exact Or.inr (lookupS_none_of_domEq h h2)

theorem SVSafe_ext {n0 : Nat} {mem ts : List (Addr × HNode)} {n n' : Addr}
    {v : SV} (hts : ∀ p ∈ ts, n0 ≤ p.1)
    (hv : SVSafe n0 ⟨mem, n⟩ v) : SVSafe n0 ⟨mem ++ ts, n'⟩ v := by
  cases v with
  | prim _ => trivial
  | ref a =>
    rcases hv with h1 | h2
    · exact Or.inl h1
    · by_cases ha : n0 ≤ a
      · exact Or.inl ha
      · refine Or.inr ?_
        simp only [lookupS, Option.map_eq_none', List.find?_eq_none] at h2 ⊢
        intro p hp hpa
        rcases List.mem_append.mp hp with hm | hm
        · exact h2 p hm hpa
        · have hge := hts p hm
          have hpe : p.1 = a := by
            simpa using hpa
          exact absurd (hpe ▸ hge) ha

/-! value subset lemmas -/

theorem getKS_safe {n0 : Nat} {s : Store} {fs : List (String × SV)}
    (k : String) (h : ∀ v ∈ fs.map (·.2), SVSafe n0 s v) :
    SVSafe n0 s (getKS fs k) := by
  simp only [getKS]
  cases hf : fs.find? (fun p => p.1 == k) with
  | none => trivial
  | some p =>
    have hp := List.mem_of_find?_eq_some hf
    exact h p.2 (List.mem_map.mpr ⟨p, hp, rfl⟩)

theorem objSetS_val_sub {fs : List (String × SV)} {k : String} {w v : SV}
    (h : v ∈ (objSetS fs k w).map (·.2)) : v = w ∨ v ∈ fs.map (·.2) := by
  simp only [objSetS] at h
  by_cases hk : hasKeyS fs k
  · rw [if_pos hk] at h
    simp only [List.map_map, List.mem_map] at h
    obtain ⟨p, hp, hv⟩ := h
    by_cases hpk : (p.1 == k) = true
    · simp only [Function.comp, if_pos hpk] at hv
      exact Or.inl hv.symm
    · simp only [Function.comp, if_neg hpk] at hv
      exact Or.inr (List.mem_map.mpr ⟨p, hp, hv⟩)
  · rw [if_neg hk] at h
    simp only [List.map_append, List.mem_append, List.map_cons, List.map_nil,
      List.mem_singleton] at h
    rcases h with h | h
    · exact Or.inr h
    · exact Or.inl h

theorem objDelS_val_sub {fs : List (String × SV)} {k : String} {v : SV}
    (h : v ∈ (objDelS fs k).map (·.2)) : v ∈ fs.map (·.2) := by
  simp only [objDelS, List.mem_map] at h ⊢
  obtain ⟨p, hp, hv⟩ := h
  exact ⟨p, (List.mem_filter.mp hp).1, hv⟩

/-! ClosedS helpers -/

theorem ClosedS_setS {s : Store} {n0 : Nat} {a : Addr} {nd : HNode}
    (ha : n0 ≤ a) (hc : ClosedS s n0)
    (hv : ∀ v ∈ nodeVals nd, SVSafe n0 s v) :
    ClosedS (setS s a nd) n0 := by
  intro b x hb hb0 v hvx
  have hdom := domEq_setS s a nd
  by_cases hba : b = a
  · subst hba
    cases hx : lookupS s b with
    | none => rw [lookupS_setS_a_none nd hx] at hb; cases hb
    | some y =>
      rw [lookupS_setS_self nd hx] at hb
      cases hb
      exact SVSafe_of_domEq hdom (hv v hvx)
  · rw [lookupS_setS_ne nd hba] at hb
    exact SVSafe_of_domEq hdom (hc b x hb hb0 v hvx)

theorem ClosedS_alloc {s : Store} {n0 : Nat} {nd : HNode}
    (hn : n0 ≤ s.next) (hc : ClosedS s n0)
    (hv : ∀ v ∈ nodeVals nd, SVSafe n0 s v) :
    ClosedS (allocS s nd).1 n0 := by
  obtain ⟨mem, nx⟩ := s
  intro b x hb hb0 v hvx
  have hts : ∀ p ∈ [((⟨mem, nx⟩ : Store).next, nd)], n0 ≤ p.1 := by
    intro p hp
    simp only [List.mem_singleton] at hp
    subst hp
    exact hn
  rcases lookupS_append_cases (n := nx) hb with h | h
  · exact SVSafe_ext hts (hc b x h hb0 v hvx)
  · simp only [List.mem_singleton] at h
    have hx : x = nd := congrArg Prod.snd h
    subst hx
    exact SVSafe_ext hts (hv v hvx)

theorem SVSafe_ext2 {n0 : Nat} {s s' : Store} {ts : List (Addr × HNode)}
    {v : SV} (hmem : s'.mem = s.mem ++ ts) (hts : ∀ p ∈ ts, n0 ≤ p.1)
    (hv : SVSafe n0 s v) : SVSafe n0 s' v := by
  obtain ⟨mem, n⟩ := s
  obtain ⟨mem', n'⟩ := s'
  simp only at hmem
  subst hmem
  exact SVSafe_ext hts hv

/-- `cloneDeep` only appends fresh nodes: the old memory is a prefix of the
new one, every appended address is at least the old allocation bound, and the
bound never decreases. -/
theorem clone_spec : ∀ f : Nat,
    (∀ s sv, ∃ ts, (cloneV f s sv).1.mem = s.mem ++ ts
      ∧ (∀ p ∈ ts, s.next ≤ p.1)
      ∧ s.next ≤ (cloneV f s sv).1.next)
    ∧ (∀ s xs, ∃ ts, (cloneL f s xs).1.mem = s.mem ++ ts
      ∧ (∀ p ∈ ts, s.next ≤ p.1)
      ∧ s.next ≤ (cloneL f s xs).1.next)
    ∧ (∀ s fs, ∃ ts, (cloneF f s fs).1.mem = s.mem ++ ts
      ∧ (∀ p ∈ ts, s.next ≤ p.1)
      ∧ s.next ≤ (cloneF f s fs).1.next) := by
  intro f
  induction f with
  | zero =>
    exact ⟨fun s sv => ⟨[], by simp [cloneV], by simp, Nat.le_refl _⟩,
      fun s xs => ⟨[], by simp [cloneL], by simp, Nat.le_refl _⟩,
      fun s fs => ⟨[], by simp [cloneF], by simp, Nat.le_refl _⟩⟩
  | succ f ih =>
    obtain ⟨ihV, ihL, ihF⟩ := ih
    have hV : ∀ s sv, ∃ ts, (cloneV (f + 1) s sv).1.mem = s.mem ++ ts
        ∧ (∀ p ∈ ts, s.next ≤ p.1)
        ∧ s.next ≤ (cloneV (f + 1) s sv).1.next := by
      intro s sv
      cases sv with
      | prim v => exact ⟨[], by simp [cloneV], by simp, Nat.le_refl _⟩
      | ref a =>
        cases hl : lookupS s a with
        | none =>
          refine ⟨[], ?_, by simp, ?_⟩ <;> simp [cloneV, hl]
        | some nd =>
          cases nd with
          | harr xs =>
            obtain ⟨ts1, hmem, hts, hnext⟩ := ihL s xs
            refine ⟨ts1 ++ [((cloneL f s xs).1.next, .harr (cloneL f s xs).2)],
              ?_, ?_, ?_⟩
            · simp only [cloneV, hl, allocS]
              rw [hmem, List.append_assoc]
            · intro p hp
              rcases List.mem_append.mp hp with h | h
              · exact hts p h
              · simp only [List.mem_singleton] at h
                subst h
                exact hnext
            · simp only [cloneV, hl, allocS]
              exact Nat.le_succ_of_le hnext
          | hobj fs =>
            obtain ⟨ts1, hmem, hts, hnext⟩ := ihF s fs
            refine ⟨ts1 ++ [((cloneF f s fs).1.next, .hobj (cloneF f s fs).2)],
              ?_, ?_, ?_⟩
            · simp only [cloneV, hl, allocS]
              rw [hmem, List.append_assoc]
            · intro p hp
              rcases List.mem_append.mp hp with h | h
              · exact hts p h
              · simp only [List.mem_singleton] at h
                subst h
                exact hnext
            · simp only [cloneV, hl, allocS]
              exact Nat.le_succ_of_le hnext
    have hL : ∀ s xs, ∃ ts, (cloneL (f + 1) s xs).1.mem = s.mem ++ ts
        ∧ (∀ p ∈ ts, s.next ≤ p.1)
        ∧ s.next ≤ (cloneL (f + 1) s xs).1.next := by
      intro s xs
      cases xs with
      | nil => exact ⟨[], by simp [cloneL], by simp, Nat.le_refl _⟩
      | cons x xs =>
        obtain ⟨ts1, hmem1, hts1, hnext1⟩ := ihV s x
        obtain ⟨ts2, hmem2, hts2, hnext2⟩ := ihL (cloneV f s x).1 xs
        refine ⟨ts1 ++ ts2, ?_, ?_, ?_⟩
        · simp only [cloneL]
          rw [hmem2, hmem1, List.append_assoc]
        · intro p hp
          rcases List.mem_append.mp hp with h | h
          · exact hts1 p h
          · exact Nat.le_trans hnext1 (hts2 p h)
        · simp only [cloneL]
          exact Nat.le_trans hnext1 hnext2
    have hF : ∀ s fs, ∃ ts, (cloneF (f + 1) s fs).1.mem = s.mem ++ ts
        ∧ (∀ p ∈ ts, s.next ≤ p.1)
        ∧ s.next ≤ (cloneF (f + 1) s fs).1.next := by
      intro s fs
      cases fs with
      | nil => exact ⟨[], by simp [cloneF], by simp, Nat.le_refl _⟩
      | cons p fs =>
        obtain ⟨ts1, hmem1, hts1, hnext1⟩ := ihV s p.2
        obtain ⟨ts2, hmem2, hts2, hnext2⟩ := ihF (cloneV f s p.2).1 fs
        refine ⟨ts1 ++ ts2, ?_, ?_, ?_⟩
        · simp only [cloneF]
          rw [hmem2, hmem1, List.append_assoc]
        · intro q hq
          rcases List.mem_append.mp hq with h | h
          · exact hts1 q h
          · exact Nat.le_trans hnext1 (hts2 q h)
        · simp only [cloneF]
          exact Nat.le_trans hnext1 hnext2
    exact ⟨hV, hL, hF⟩

/-- The clone's store stays closed above `n0`, and everything the clone
returns is safe: a primitive, a freshly allocated reference, or a reference
that dangles (and keeps dangling below the bound). -/
theorem clone_closed (n0 : Nat) : ∀ f : Nat,
    (∀ s sv, n0 ≤ s.next → ClosedS s n0 →
      ClosedS (cloneV f s sv).1 n0
      ∧ SVSafe n0 (cloneV f s sv).1 (cloneV f s sv).2)
    ∧ (∀ s xs, n0 ≤ s.next → ClosedS s n0 →
      ClosedS (cloneL f s xs).1 n0
      ∧ ∀ y ∈ (cloneL f s xs).2, SVSafe n0 (cloneL f s xs).1 y)
    ∧ (∀ s fs, n0 ≤ s.next → ClosedS s n0 →
      ClosedS (cloneF f s fs).1 n0
      ∧ ∀ p ∈ (cloneF f s fs).2, SVSafe n0 (cloneF f s fs).1 p.2) := by
  intro f
  induction f with
  | zero =>
    refine ⟨fun s sv hn hc => ⟨by simpa [cloneV] using hc, by simp [cloneV, SVSafe]⟩,
      fun s xs hn hc => ⟨by simpa [cloneL] using hc, by simp [cloneL]⟩,
      fun s fs hn hc => ⟨by simpa [cloneF] using hc, by simp [cloneF]⟩⟩
  | succ f ih =>
    obtain ⟨ihV, ihL, ihF⟩ := ih
    obtain ⟨specV, specL, specF⟩ := clone_spec f
    have hV : ∀ s sv, n0 ≤ s.next → ClosedS s n0 →
        ClosedS (cloneV (f + 1) s sv).1 n0
        ∧ SVSafe n0 (cloneV (f + 1) s sv).1 (cloneV (f + 1) s sv).2 := by
      intro s sv hn hc
      cases sv with
      | prim v =>
        exact ⟨by simpa [cloneV] using hc, by simp [cloneV, SVSafe]⟩
      | ref a =>
        cases hl : lookupS s a with
        | none =>
          refine ⟨by simpa [cloneV, hl] using hc, ?_⟩
          simp only [cloneV, hl]
          exact Or.inr hl
        | some nd =>
          cases nd with
          | harr xs =>
            obtain ⟨hc1, hsafe1⟩ := ihL s xs hn hc
            obtain ⟨ts1, hmem1, hts1, hnext1⟩ := specL s xs
            have hn1 : n0 ≤ (cloneL f s xs).1.next := Nat.le_trans hn hnext1
            have hc2 : ClosedS (allocS (cloneL f s xs).1
                (.harr (cloneL f s xs).2)).1 n0 :=
              ClosedS_alloc hn1 hc1 (fun v hv => hsafe1 v hv)
            constructor
            · simpa only [cloneV, hl] using hc2
            · simp only [cloneV, hl]
              exact Or.inl hn1
          | hobj fs =>
            obtain ⟨hc1, hsafe1⟩ := ihF s fs hn hc
            obtain ⟨ts1, hmem1, hts1, hnext1⟩ := specF s fs
            have hn1 : n0 ≤ (cloneF f s fs).1.next := Nat.le_trans hn hnext1
            have hc2 : ClosedS (allocS (cloneF f s fs).1
                (.hobj (cloneF f s fs).2)).1 n0 := by
              refine ClosedS_alloc hn1 hc1 (fun v hv => ?_)
              simp only [nodeVals] at hv
              obtain ⟨p, hp, hpv⟩ := List.mem_map.mp hv
              exact hpv ▸ hsafe1 p hp
            constructor
            · simpa only [cloneV, hl] using hc2
            · simp only [cloneV, hl]
              exact Or.inl hn1
    have hL : ∀ s xs, n0 ≤ s.next → ClosedS s n0 →
        ClosedS (cloneL (f + 1) s xs).1 n0
        ∧ ∀ y ∈ (cloneL (f + 1) s xs).2, SVSafe n0 (cloneL (f + 1) s xs).1 y := by
      intro s xs hn hc
      cases xs with
      | nil => exact ⟨by simpa [cloneL] using hc, by simp [cloneL]⟩
      | cons x xs =>
        obtain ⟨hc1, hsafe1⟩ := ihV s x hn hc
        obtain ⟨ts1, hmem1, hts1, hnext1⟩ := specV s x
        have hn1 : n0 ≤ (cloneV f s x).1.next := Nat.le_trans hn hnext1
        obtain ⟨hc2, hsafe2⟩ := ihL (cloneV f s x).1 xs hn1 hc1
        obtain ⟨ts2, hmem2, hts2, hnext2⟩ := specL (cloneV f s x).1 xs
        have hts2' : ∀ p ∈ ts2, n0 ≤ p.1 :=
          fun p hp => Nat.le_trans hn1 (hts2 p hp)
        constructor
        · simpa only [cloneL] using hc2
        · intro y hy
          simp only [cloneL, List.mem_cons] at hy ⊢
          rcases hy with hy | hy
          · subst hy
            exact SVSafe_ext2 hmem2 hts2' hsafe1
          · exact hsafe2 y hy
    have hF : ∀ s fs, n0 ≤ s.next → ClosedS s n0 →
        ClosedS (cloneF (f + 1) s fs).1 n0
        ∧ ∀ p ∈ (cloneF (f + 1) s fs).2,
            SVSafe n0 (cloneF (f + 1) s fs).1 p.2 := by
      intro s fs hn hc
      cases fs with
      | nil => exact ⟨by simpa [cloneF] using hc, by simp [cloneF]⟩
      | cons q fs =>
        obtain ⟨hc1, hsafe1⟩ := ihV s q.2 hn hc
        obtain ⟨ts1, hmem1, hts1, hnext1⟩ := specV s q.2
        have hn1 : n0 ≤ (cloneV f s q.2).1.next := Nat.le_trans hn hnext1
        obtain ⟨hc2, hsafe2⟩ := ihF (cloneV f s q.2).1 fs hn1 hc1
        obtain ⟨ts2, hmem2, hts2, hnext2⟩ := specF (cloneV f s q.2).1 fs
        have hts2' : ∀ p ∈ ts2, n0 ≤ p.1 :=
          fun p hp => Nat.le_trans hn1 (hts2 p hp)
        constructor
        · simpa only [cloneF] using hc2
        · intro p hp
          simp only [cloneF, List.mem_cons] at hp ⊢
          rcases hp with hp | hp
          · subst hp
            exact SVSafe_ext2 hmem2 hts2' hsafe1
          · exact hsafe2 p hp
    exact ⟨hV, hL, hF⟩

/-- The three frame facts carried through the mutator: domain and allocation
bound unchanged, lookups below `n0` unchanged, and closure above `n0`
preserved. -/
def Frame3 (n0 : Nat) (s s' : Store) : Prop :=
  domEq s s' ∧ (∀ b, b < n0 → lookupS s' b = lookupS s b) ∧ ClosedS s' n0

theorem Frame3_refl {n0 : Nat} {s : Store} (hc : ClosedS s n0) :
    Frame3 n0 s s := ⟨domEq_refl s, fun _ _ => rfl, hc⟩

theorem Frame3_trans {n0 : Nat} {s t u : Store} (h1 : Frame3 n0 s t)
    (h2 : Frame3 n0 t u) : Frame3 n0 s u :=
  ⟨domEq_trans h1.1 h2.1, fun b hb => (h2.2.1 b hb).trans (h1.2.1 b hb),
    h2.2.2⟩

/-- The in-place key transformer only writes to the region at or above `n0`
when its root is safe for `n0` and the store is closed above `n0`:
below `n0` every lookup is unchanged. -/
theorem keyTrS_frame (ren : String → String) (n0 : Nat) : ∀ f : Nat,
    (∀ d sv s, SVSafe n0 s sv → ClosedS s n0 →
      Frame3 n0 s (keyTrS ren f d sv s))
    ∧ (∀ xs s, (∀ x ∈ xs, SVSafe n0 s x) → ClosedS s n0 →
      Frame3 n0 s (keyLsS ren f xs s))
    ∧ (∀ d a ks s, n0 ≤ a → ClosedS s n0 →
      Frame3 n0 s (keyFsS ren f d a ks s)) := by
  intro f
  induction f with
  | zero =>
    exact ⟨fun d sv s _ hc => by simpa only [keyTrS] using Frame3_refl hc,
      fun xs s _ hc => by simpa only [keyLsS] using Frame3_refl hc,
      fun d a ks s _ hc => by simpa only [keyFsS] using Frame3_refl hc⟩
  | succ f ih =>
    obtain ⟨ihV, ihL, ihF⟩ := ih
    have hV : ∀ d sv s, SVSafe n0 s sv → ClosedS s n0 →
        Frame3 n0 s (keyTrS ren (f + 1) d sv s) := by
      intro d sv s hsv hc
      cases d with
      | zero => simpa only [keyTrS] using Frame3_refl hc
      | succ d =>
        cases sv with
        | prim v => simpa only [keyTrS] using Frame3_refl hc
        | ref a =>
          cases hl : lookupS s a with
          | none => simpa only [keyTrS, hl] using Frame3_refl hc
          | some nd =>
            have ha : n0 ≤ a := by
              rcases hsv with h | h
              · exact h
              · rw [hl] at h; cases h
            cases nd with
            | harr xs =>
              have hxs : ∀ x ∈ xs, SVSafe n0 s x := by
                intro x hx
                exact hc a (.harr xs) hl ha x hx
              simpa only [keyTrS, hl] using ihL xs s hxs hc
            | hobj fs =>
              simpa only [keyTrS, hl] using
                ihF d a (fs.map (·.1)) s ha hc
    have hL : ∀ xs s, (∀ x ∈ xs, SVSafe n0 s x) → ClosedS s n0 →
        Frame3 n0 s (keyLsS ren (f + 1) xs s) := by
      intro xs s hxs hc
      cases xs with
      | nil => simpa only [keyLsS] using Frame3_refl hc
      | cons x xs =>
        have h1 : Frame3 n0 s (keyTrS ren f 10 x s) :=
          ihV 10 x s (hxs x (List.mem_cons_self x xs)) hc
        have hxs' : ∀ y ∈ xs, SVSafe n0 (keyTrS ren f 10 x s) y :=
          fun y hy => SVSafe_of_domEq h1.1
            (hxs y (List.mem_cons_of_mem x hy))
        have h2 : Frame3 n0 (keyTrS ren f 10 x s)
            (keyLsS ren f xs (keyTrS ren f 10 x s)) :=
          ihL xs (keyTrS ren f 10 x s) hxs' h1.2.2
        simpa only [keyLsS] using Frame3_trans h1 h2
    have hF : ∀ d a ks s, n0 ≤ a → ClosedS s n0 →
        Frame3 n0 s (keyFsS ren (f + 1) d a ks s) := by
      intro d a ks s ha hc
      cases ks with
      | nil => simpa only [keyFsS] using Frame3_refl hc
      | cons k ks =>
        cases hl : lookupS s a with
        | none => simpa only [keyFsS, hl] using Frame3_refl hc
        | some nd =>
          cases nd with
          | harr xs => simpa only [keyFsS, hl] using Frame3_refl hc
          | hobj fs =>
            have hvals : ∀ v ∈ fs.map (·.2), SVSafe n0 s v :=
              fun v hv => hc a (.hobj fs) hl ha v hv
            simp only [keyFsS, hl]
            by_cases hk : hasKeyS fs k = true
            · rw [if_pos hk]
              by_cases he : ren k = k
              · rw [if_pos he]
                by_cases ho : (getKS fs k).isObjTypeS = true
                · rw [if_pos ho]
                  have hv : SVSafe n0 s (getKS fs k) := getKS_safe k hvals
                  have h2 : Frame3 n0 s (keyTrS ren f d (getKS fs k) s) :=
                    ihV d (getKS fs k) s hv hc
                  exact Frame3_trans h2 (ihF d a ks _ ha h2.2.2)
                · rw [if_neg ho]
                  exact ihF d a ks s ha hc
              · rw [if_neg he]
                generalize hFS : objDelS (objSetS fs (ren k) (getKS fs k)) k = fs1
                have hfs1vals : ∀ v ∈ fs1.map (·.2), SVSafe n0 s v := by
                  intro v hv
                  rw [← hFS] at hv
                  have hv2 := objDelS_val_sub hv
                  rcases objSetS_val_sub hv2 with h | h
                  · subst h
                    exact getKS_safe k hvals
                  · exact hvals v h
                have h1 : Frame3 n0 s (setS s a (.hobj fs1)) := by
                  refine ⟨domEq_setS s a (.hobj fs1), ?_, ?_⟩
                  · intro b hb
                    have hba : b ≠ a := by omega
                    exact lookupS_setS_ne (.hobj fs1) hba
                  · refine ClosedS_setS ha hc ?_
                    intro v hv
                    simp only [nodeVals] at hv
                    exact hfs1vals v hv
                have hv1 : SVSafe n0 (setS s a (.hobj fs1))
                    (getKS fs1 (ren k)) :=
                  SVSafe_of_domEq h1.1 (getKS_safe (ren k) hfs1vals)
                by_cases ho : (getKS fs1 (ren k)).isObjTypeS = true
                · rw [if_pos ho]
                  have h2 : Frame3 n0 (setS s a (.hobj fs1))
                      (keyTrS ren f d (getKS fs1 (ren k))
                        (setS s a (.hobj fs1))) :=
                    ihV d _ _ hv1 h1.2.2
                  exact Frame3_trans (Frame3_trans h1 h2)
                    (ihF d a ks _ ha h2.2.2)
                · rw [if_neg ho]
                  exact Frame3_trans h1 (ihF d a ks _ ha h1.2.2)
            · rw [if_neg hk]
              exact ihF d a ks s ha hc
    exact ⟨hV, hL, hF⟩

theorem ClosedS_of_WFStore {s : Store} (h : WFStore s) : ClosedS s s.next := by
  intro a nd hl ha v hv
  have hmem := lookupS_mem hl
  have hlt : a < s.next := (h (a, nd) hmem).1
  exact absurd hlt (Nat.not_lt.mpr ha)

theorem lookupS_ext_frame {s s' : Store} {ts : List (Addr × HNode)}
    (hmem : s'.mem = s.mem ++ ts) (hts : ∀ p ∈ ts, s.next ≤ p.1)
    {b : Addr} (hb : b < s.next) : lookupS s' b = lookupS s b := by
  obtain ⟨mem, nx⟩ := s
  obtain ⟨mem', nx'⟩ := s'
  simp only at hmem hts hb
  subst hmem
  exact lookupS_append_lt hts hb

/-- Reading back any value whose references lie below the bound gives the
same result in two stores that agree on all lookups below the bound. -/
theorem read_frame : ∀ g : Nat, ∀ s s' : Store,
    (∀ b, b < s.next → lookupS s' b = lookupS s b) → WFStore s →
    (∀ sv, svBelow s.next sv = true → readV g s' sv = readV g s sv)
    ∧ (∀ xs, (∀ x ∈ xs, svBelow s.next x = true) →
        readL g s' xs = readL g s xs)
    ∧ (∀ fs, (∀ p ∈ fs, svBelow s.next p.2 = true) →
        readF g s' fs = readF g s fs) := by
  intro g
  induction g with
  | zero =>
    intro s s' hfr hwf
    exact ⟨fun sv _ => rfl, fun xs _ => rfl, fun fs _ => rfl⟩
  | succ g ih =>
    intro s s' hfr hwf
    obtain ⟨ihV, ihL, ihF⟩ := ih s s' hfr hwf
    have hV : ∀ sv, svBelow s.next sv = true →
        readV (g + 1) s' sv = readV (g + 1) s sv := by
      intro sv hb
      cases sv with
      | prim v => rfl
      | ref a =>
        have ha : a < s.next := by
          simpa [svBelow] using hb
        simp only [readV, hfr a ha]
        cases hl : lookupS s a with
        | none => rfl
        | some nd =>
          have hmem := lookupS_mem hl
          have hnd := (hwf (a, nd) hmem).2
          cases nd with
          | harr xs =>
            simp only
            rw [ihL xs (fun x hx => hnd x hx)]
          | hobj fs =>
            simp only
            rw [ihF fs (fun p hp => hnd p.2 (by
              simp only [nodeVals]
              exact List.mem_map.mpr ⟨p, hp, rfl⟩))]
    refine ⟨hV, ?_, ?_⟩
    · intro xs hxs
      cases xs with
      | nil => rfl
      | cons x xs =>
        simp only [readL]
        rw [ihV x (hxs x (List.mem_cons_self x xs)),
          ihL xs (fun y hy => hxs y (List.mem_cons_of_mem x hy))]
    · intro fs hfs
      cases fs with
      | nil => rfl
      | cons p fs =>
        simp only [readF]
        rw [ihV p.2 (hfs p (List.mem_cons_self p fs)),
          ihF fs (fun q hq => hfs q (List.mem_cons_of_mem p hq))]

/-- Clone-then-mutate never changes a lookup below the original allocation
bound. -/
theorem cloneMutate_frame (ren : String → String) (s : Store) (sv : SV)
    (d fuel : Nat) (hwf : WFStore s) :
    ∀ b, b < s.next →
      lookupS (keyTrS ren fuel d (cloneV fuel s sv).2 (cloneV fuel s sv).1) b
        = lookupS s b := by
  obtain ⟨specV, _, _⟩ := clone_spec fuel
  obtain ⟨ts, hmem, hts, hnext⟩ := specV s sv
  obtain ⟨closedV, _, _⟩ := clone_closed s.next fuel
  have hcs : ClosedS s s.next := ClosedS_of_WFStore hwf
  obtain ⟨hc1, hsafe⟩ := closedV s sv (Nat.le_refl _) hcs
  obtain ⟨frV, _, _⟩ := keyTrS_frame ren s.next fuel
  have h3 := frV d (cloneV fuel s sv).2 (cloneV fuel s sv).1 hsafe hc1
  intro b hb
  have h4 : lookupS (cloneV fuel s sv).1 b = lookupS s b :=
    lookupS_ext_frame hmem hts hb
  exact (h3.2.1 b hb).trans h4


/-- `HttpHepler.snakeToHump` at the heap level (src/http.helper.ts, lines
4-7): clone the input, then rewrite the clone in place with `_.camelCase`;
the returned value is `undefined` when the depth budget is exhausted at the
top (`--depth < 0`). -/
def snakeToHumpS (fuel : Nat) (s : Store) (sv : SV) (d : Nat) : Store × SV :=
  let r := cloneV fuel s sv
  (keyTrS camelLodash fuel d r.2 r.1, if d = 0 then .prim .undef else r.2)

/-- `HttpHepler.humpToSnake` at the heap level (src/http.helper.ts, lines
31-34): clone, then rewrite the clone in place with `_.snakeCase`. -/
def humpToSnakeS (fuel : Nat) (s : Store) (sv : SV) (d : Nat) : Store × SV :=
  let r := cloneV fuel s sv
  (keyTrS snakeLodash fuel d r.2 r.1, if d = 0 then .prim .undef else r.2)

/-- A one-object heap holding `{a_b: 1}` at address 0. -/
def storeEx : Store := ⟨[(0, .hobj [("a_b", .prim (.num 1))])], 1⟩

example : lookupS (snakeToHumpS 10 storeEx (.ref 0) 10).1 0
    = some (.hobj [("a_b", .prim (.num 1))]) := rfl
example : lookupS (snakeToHumpS 10 storeEx (.ref 0) 10).1 1
    = some (.hobj [("aB", .prim (.num 1))]) := rfl
example : readV 10 (snakeToHumpS 10 storeEx (.ref 0) 10).1 (.ref 0)
    = .obj [("a_b", .num 1)] := rfl
example : readV 10 (snakeToHumpS 10 storeEx (.ref 0) 10).1
    (snakeToHumpS 10 storeEx (.ref 0) 10).2 = .obj [("aB", .num 1)] := rfl

/-! ## The claims -/

/-- C1: the spec says a transport failure whose error body carries a `code`
(and/or `data`) field is recovered and returned as a normal envelope.  In the
code, the catch branch builds that envelope with `status: resp.status`, but
`resp` is the `try` block's variable, never assigned because the transport
threw — so `resp.status` throws a `TypeError` and the envelope is never
returned.  On the claim's own instance (`code: 404`, `msg: "not found"`), the
call ends in the `TypeError`, not the promised envelope. -/
theorem claim_C1 :
    (request ⟨none, .NONE⟩ "u" []
      (.failure "boom" (some ⟨404, .obj [("code", .num 404),
        ("msg", .str "not found")]⟩))).result = ReqResult.typeError := rfl

/-- C2 (amended): the exception test is JS truthiness, not field presence.
For a failure with an error response present, the call throws
`HttpRequestApiException` with the underlying message exactly when the
falsy-defaulted body has neither a truthy `code` nor a truthy `data`; a body
that is `undefined` or `{}` does lead to that exception; but an error with no
`response` object at all crashes with a `TypeError` instead (`err.response`
is `undefined`). -/
theorem claim_C2 (opt : HttpOption) (url : String) (cfg : Config)
    (message : String) (s0 : Int) (r : ErrResponse) :
    ((request opt url cfg (.failure message (some r))).result
        = ReqResult.apiExn message ↔
      (!((if r.data.truthy then r.data else JVal.obj []).getF "code").truthy
        && !((if r.data.truthy then r.data
              else JVal.obj []).getF "data").truthy) = true)
    ∧ (request opt url cfg
        (.failure message (some ⟨s0, .undef⟩))).result
        = ReqResult.apiExn message
    ∧ (request opt url cfg
        (.failure message (some ⟨s0, .obj []⟩))).result
        = ReqResult.apiExn message
    ∧ (request opt url cfg (.failure message none)).result
        = ReqResult.typeError := by
  refine ⟨?_, rfl, rfl, rfl⟩
  have hbase : (request opt url cfg (.failure message (some r))).result =
      (if (!((if r.data.truthy then r.data else JVal.obj []).getF "code").truthy
          && !((if r.data.truthy then r.data
                else JVal.obj []).getF "data").truthy) = true
       then ReqResult.apiExn message else ReqResult.typeError) := rfl
  rw [hbase]
  by_cases h : (!((if r.data.truthy then r.data
        else JVal.obj []).getF "code").truthy
      && !((if r.data.truthy then r.data
        else JVal.obj []).getF "data").truthy) = true
  · rw [if_pos h]
    exact ⟨fun _ => h, fun _ => rfl⟩
  · rw [if_neg h]
    exact ⟨fun he => absurd he (fun hh => ReqResult.noConfusion hh),
      fun hc => absurd hc h⟩

/-- C2, counterexample to the claim as stated: the error body
`{code: 0}` has a `code` field, so by the claim the call must not end in the
exception; the code tests truthiness, `0` is falsy, and the exception carrying
the underlying message is thrown anyway. -/
theorem claim_C2_counter :
    hasKey [("code", JVal.num 0)] "code" = true ∧
    (request ⟨none, .NONE⟩ "u" []
      (.failure "boom" (some ⟨500, .obj [("code", .num 0)]⟩))).result
      = ReqResult.apiExn "boom" := ⟨rfl, rfl⟩

/-- C3 (amended): the round trips hold per direction under the losslessness
restriction the spec itself assumes ("conversions are lossless for well-formed
identifier-style keys"): snake_case keys with no two adjacent single-letter
non-first words (`SnakeKeyR`), and lodash-canonical camelCase keys
(`CamelKey`); then at any matching depth budget `d ≠ 0` (the default 10
included) `humpToSnake (snakeToHump v) == v` and
`snakeToHump (humpToSnake w) == w` up to deep equality. -/
theorem claim_C3 (d : Nat) (v w : JVal) (hd : d ≠ 0)
    (hv : SnakeOkR v) (hw : CamelOk w) :
    deepEqB (humpToSnake (snakeToHump v d) d) v = true
    ∧ deepEqB (snakeToHump (humpToSnake w d) d) w = true :=
  ⟨roundtrip_snake_val d v hd hv, roundtrip_camel_val d w hd hw⟩

theorem claim_C3_witness :
    (10 : Nat) ≠ 0
    ∧ SnakeOkR (.obj [("a_b", .num 1)]) ∧ CamelOk (.obj [("aB", .num 1)])
    ∧ deepEqB (humpToSnake (snakeToHump (.obj [("a_b", .num 1)]) 10) 10)
        (.obj [("a_b", .num 1)]) = true
    ∧ deepEqB (snakeToHump (humpToSnake (.obj [("aB", .num 1)]) 10) 10)
        (.obj [("aB", .num 1)]) = true :=
  ⟨by decide, snakeOkR_ex, camelOk_ex,
    (claim_C3 10 (.obj [("a_b", .num 1)]) (.obj [("aB", .num 1)])
      (by decide) snakeOkR_ex camelOk_ex).1,
    (claim_C3 10 (.obj [("a_b", .num 1)]) (.obj [("aB", .num 1)])
      (by decide) snakeOkR_ex camelOk_ex).2⟩

/-- C3, counterexample to the claim as stated: `"a_b_c"` is a well-formed
snake_case key (three lowercase words joined by single underscores), but
lodash's conversions are lossy on it: `{a_b_c: 1} → {aBC: 1} → {a_bc: 1}`,
which is not deep-equal to the input. -/
theorem claim_C3_counter :
    SnakeKey "a_b_c"
    ∧ humpToSnake (snakeToHump (.obj [("a_b_c", .num 1)]) 10) 10
        = .obj [("a_bc", .num 1)]
    ∧ deepEqB (humpToSnake (snakeToHump (.obj [("a_b_c", .num 1)]) 10) 10)
        (.obj [("a_b_c", .num 1)]) = false :=
  ⟨⟨[['a'], ['b'], ['c']],
    by intro w hw; simp at hw
       rcases hw with h | h | h <;> subst h <;> exact ⟨by decide, by decide⟩,
    by decide, by decide⟩, rfl, rfl⟩

/-- C4: the claim says a sequence node recurses into its elements with
`depth - 1`, so with budget `1` the keys of an object inside an array are
beyond the budget and stay unrenamed.  In the code the array branch calls
`forEach(item => _snakeToHump(item))`, dropping the depth argument, so each
element restarts at the default budget 10: on `[{a_b: 1}]` with depth 1 the
inner key is renamed to `aB` — not left as `a_b` as the claim requires. -/
theorem claim_C4 :
    snakeToHump (.arr [.obj [("a_b", .num 1)]]) 1
      = .arr [.obj [("aB", .num 1)]]
    ∧ snakeToHump (.arr [.obj [("a_b", .num 1)]]) 1
      ≠ .arr [.obj [("a_b", .num 1)]] := by
  refine ⟨rfl, ?_⟩
  intro h
  rw [show snakeToHump (.arr [.obj [("a_b", .num 1)]]) 1
      = .arr [.obj [("aB", .num 1)]] from rfl] at h
  simp only [JVal.arr.injEq, List.cons.injEq, JVal.obj.injEq,
    Prod.mk.injEq, and_true] at h
  exact absurd h (by decide)

/-- C6 (amended): the envelope defaults use JS truthiness (`||`), not the
nullish `??`: on success the caller receives
`{code: data.code || 0, msg: data.msg || "", data: content, status}` where
`content` is `data.data` transformed inversely to the outgoing direction
(absent payload defaulted to `{}` first under a transforming style); on the
spec's Scenario B instance the two agree and the caller receives
`{code: 0, msg: "ok", data: {userId: 5}, status: 200}`. -/
theorem claim_C6 :
    ((request ⟨none, .CAMEL_TO_SNAKE⟩ "api" []
      (.success 200 (.obj [("code", .num 0), ("msg", .str "ok"),
        ("data", .obj [("user_id", .num 5)])]))).result
      = .ok ⟨.num 0, .str "ok", .obj [("userId", .num 5)], 200⟩)
    ∧ ∀ (proto : Option String) (ps : ParameterStyle) (url : String)
        (cfg : Config) (status : Int) (fs : List (String × JVal)),
        (request ⟨proto, ps⟩ url cfg (.success status (.obj fs))).result
        = .ok ⟨(getK fs "code").jsOr (.num 0),
            (getK fs "msg").jsOr (.str ""),
            (match ps with
             | .NONE => getK fs "data"
             | .CAMEL_TO_SNAKE => snakeToHump ((getK fs "data").jsOr (.obj [])) 10
             | .SNAKE_TO_CAMEL => humpToSnake ((getK fs "data").jsOr (.obj [])) 10),
            status⟩ := by
  refine ⟨rfl, fun proto ps url cfg status fs => ?_⟩
  cases ps <;> rfl

/-- C6, counterexample to the claim as stated: with body
`{code: false, msg: "m", data: 1}` the claim's `code: data.code ?? 0` keeps
`false` (it is not nullish), but the code's `data.code || 0` replaces the
falsy `false` with `0`. -/
theorem claim_C6_counter :
    (request ⟨none, .NONE⟩ "u" [] (.success 200
      (.obj [("code", .bool false), ("msg", .str "m"), ("data", .num 1)]))).result
      = .ok ⟨.num 0, .str "m", .num 1, 200⟩
    ∧ JVal.jsNullish (JVal.bool false) (JVal.num 0) = JVal.bool false
    ∧ JVal.num 0 ≠ JVal.bool false :=
  ⟨rfl, rfl, fun h => JVal.noConfusion h⟩

/-- C7: the url handed to the transport is `url` itself when the configured
protocol (default `"http"`) is a literal character prefix of `url`, and
`"<protocol>://" ++ url` otherwise; in particular with protocol `"https"`,
`"service.internal/x"` becomes `"https://service.internal/x"`. -/
theorem claim_C7 :
    (∀ (opt : HttpOption) (url : String) (cfg : Config) (tr : Transport),
      (request opt url cfg tr).url =
        if strPrefix (opt.protocol.getD "http").data url.data then url
        else (opt.protocol.getD "http") ++ "://" ++ url)
    ∧ (request ⟨some "https", .NONE⟩ "service.internal/x" []
        (.success 200 (.obj []))).url = "https://service.internal/x" :=
  ⟨fun _ _ _ _ => rfl, rfl⟩

/-- C8: a value already entirely in the target convention is returned
unchanged — `snakeToHump` is the identity on all-camelCase values and
`humpToSnake` on all-snake_case values (any depth budget `d ≠ 0`), so in
particular the results are deep-equal to the inputs. -/
theorem claim_C8 (d : Nat) (v w : JVal) (hd : d ≠ 0)
    (hv : CamelOk v) (hw : SnakeOkP w) :
    snakeToHump v d = v ∧ humpToSnake w d = w
    ∧ deepEqB (snakeToHump v d) v = true
    ∧ deepEqB (humpToSnake w d) w = true := by
  have h1 := noop_camel_val d v hd hv
  have h2 := noop_snake_val d w hd hw
  refine ⟨h1, h2, ?_, ?_⟩
  · rw [h1]
    exact deepEqB_refl (needV v) v (Nat.le_refl _)
      (ValOk_mono (fun _ _ => trivial) (needV v) v (Nat.le_refl _) hv)
  · rw [h2]
    exact deepEqB_refl (needV w) w (Nat.le_refl _)
      (ValOk_mono (fun _ _ => trivial) (needV w) w (Nat.le_refl _) hw)

theorem claim_C8_witness :
    (10 : Nat) ≠ 0
    ∧ CamelOk (.obj [("aB", .num 1)]) ∧ SnakeOkP (.obj [("a_b", .num 1)])
    ∧ snakeToHump (.obj [("aB", .num 1)]) 10 = .obj [("aB", .num 1)]
    ∧ humpToSnake (.obj [("a_b", .num 1)]) 10 = .obj [("a_b", .num 1)] :=
  ⟨by decide, camelOk_ex, snakeOkP_ex,
    (claim_C8 10 (.obj [("aB", .num 1)]) (.obj [("a_b", .num 1)])
      (by decide) camelOk_ex snakeOkP_ex).1,
    (claim_C8 10 (.obj [("aB", .num 1)]) (.obj [("a_b", .num 1)])
      (by decide) camelOk_ex snakeOkP_ex).2.1⟩

/-- C9: each verb wrapper equals the core `request` on the same url and the
config with `method` fixed to the verb (JS spread-then-assign, i.e. update in
place or append); the `method` field of the passed config is the verb, and
every other field is passed through unchanged. -/
theorem claim_C9 (opt : HttpOption) (url : String) (cfg : Config)
    (tr : Transport) :
    (post opt url cfg tr
        = request opt url (objSet cfg "method" (.str "post")) tr
      ∧ get opt url cfg tr
        = request opt url (objSet cfg "method" (.str "get")) tr
      ∧ put opt url cfg tr
        = request opt url (objSet cfg "method" (.str "put")) tr
      ∧ delete opt url cfg tr
        = request opt url (objSet cfg "method" (.str "delete")) tr
      ∧ patch opt url cfg tr
        = request opt url (objSet cfg "method" (.str "patch")) tr
      ∧ head opt url cfg tr
        = request opt url (objSet cfg "method" (.str "head")) tr)
    ∧ (∀ v : JVal, getK (objSet cfg "method" v) "method" = v)
    ∧ (∀ (v : JVal) (k : String), k ≠ "method" →
        getK (objSet cfg "method" v) k = getK cfg k) :=
  ⟨⟨rfl, rfl, rfl, rfl, rfl, rfl⟩,
    fun v => getK_objSet_self cfg "method" v,
    fun v _ hk => getK_objSet_ne cfg v hk⟩

theorem claim_C9_witness :
    ("data" : String) ≠ "method"
    ∧ getK (objSet [("data", JVal.num 1)] "method" (.str "post")) "data"
        = JVal.num 1
    ∧ getK (objSet [("data", JVal.num 1)] "method" (.str "post")) "method"
        = .str "post" := by
  have h := claim_C9 ⟨none, ParameterStyle.NONE⟩ "u" [("data", JVal.num 1)]
    (.success 200 (.obj []))
  refine ⟨by decide, ?_, h.2.1 (.str "post")⟩
  rw [h.2.2 (.str "post") "data" (by decide)]
  rfl

/-- C10: on a successful call whose body has no `data` field, the envelope's
`data` is `undefined` under `NONE` (the raw `data.data`), but `{}` under
either transforming style (the absent payload is defaulted with
`data.data || {}` before the transform, and the transform maps `{}` to `{}`).
-/
theorem claim_C10 (proto : Option String) (url : String) (cfg : Config)
    (status : Int) (fs : List (String × JVal))
    (h : hasKey fs "data" = false) (ps : ParameterStyle) :
    ∃ code msg,
      (request ⟨proto, ps⟩ url cfg (.success status (.obj fs))).result
        = ReqResult.ok ⟨code, msg,
            (match ps with
             | .NONE => JVal.undef
             | .CAMEL_TO_SNAKE => JVal.obj []
             | .SNAKE_TO_CAMEL => JVal.obj []), status⟩ := by
  refine ⟨(JVal.obj fs).getF "code" |>.jsOr (.num 0),
    (JVal.obj fs).getF "msg" |>.jsOr (.str ""), ?_⟩
  have hd : (fs.find? (fun p => p.1 == "data")).elim JVal.undef (·.2)
      = JVal.undef := getK_of_not_hasKey h
  cases ps <;>
    simp only [request, JVal.jsGet, hd] <;> rfl

theorem claim_C10_witness :
    hasKey [("code", JVal.num 0)] "data" = false
    ∧ (∃ code msg,
        (request ⟨none, ParameterStyle.CAMEL_TO_SNAKE⟩ "u" []
          (.success 200 (.obj [("code", JVal.num 0)]))).result
        = ReqResult.ok ⟨code, msg, JVal.obj [], 200⟩) :=
  ⟨rfl, claim_C10 none "u" [] 200 [("code", JVal.num 0)] rfl .CAMEL_TO_SNAKE⟩

/-- C5: the transformers never mutate the caller's input.  At the heap level,
`snakeToHump`/`humpToSnake` first `cloneDeep` the input and then rewrite only
the clone: for every well-formed store and every input value whose references
lie in the store, reading the original value back after the call (at any
depth, any clone fuel and any read fuel) gives exactly the pre-call
snapshot. -/
theorem claim_C5 (s : Store) (sv : SV) (d fuel g : Nat)
    (hwf : WFStore s) (hsv : svBelow s.next sv = true) :
    readV g (snakeToHumpS fuel s sv d).1 sv = readV g s sv
    ∧ readV g (humpToSnakeS fuel s sv d).1 sv = readV g s sv := by
  constructor
  · exact (read_frame g s _
      (cloneMutate_frame camelLodash s sv d fuel hwf) hwf).1 sv hsv
  · exact (read_frame g s _
      (cloneMutate_frame snakeLodash s sv d fuel hwf) hwf).1 sv hsv

theorem claim_C5_witness :
    WFStore storeEx ∧ svBelow storeEx.next (.ref 0) = true
    ∧ readV 10 (snakeToHumpS 10 storeEx (.ref 0) 10).1 (.ref 0)
        = readV 10 storeEx (.ref 0)
    ∧ readV 10 (humpToSnakeS 10 storeEx (.ref 0) 10).1 (.ref 0)
        = readV 10 storeEx (.ref 0) := by
  have hwf : WFStore storeEx := by
    unfold WFStore storeEx
    decide
  have h := claim_C5 storeEx (.ref 0) 10 10 10 hwf rfl
  exact ⟨hwf, rfl, h.1, h.2⟩
